import Mathlib

/-!
Verification of the ghost-replay codec and server-side validation of the
racing game repository.

The JavaScript sources are shallowly embedded:
* JS numbers used as integers (times, byte values, hashes) become `ℤ`/`ℕ`
  with explicit wrap-around (`% 2^32`) where the code relies on JS 32-bit
  bitwise operator semantics (`|0`, `<<`, `>>>`, `^`, `|`, `&`).
* JS floating-point position arithmetic is idealised as exact rational
  (`ℚ`) arithmetic; the fixed-point quantisation (`Math.round(v * 100)`)
  is modelled exactly.
* Byte arrays (`Uint8Array`) become `List ℕ` of values `< 256`; reading
  past the end of a `Uint8Array` yields `undefined`, which the codec's
  arithmetic (`undefined & 0x7F`, `undefined >= 0x80`) turns into `0`
  and `false`; the embedding mirrors that behaviour explicitly.
* Thrown exceptions (null dereference on `lastSnap`) become `Option`;
  the surrounding `try/catch` becomes `Option.getD`.
* The base64 transport wrapper (`btoa`/`atob`) is external to the codec
  logic and the embedding works at the byte level on its two sides.
-/

/-- JS `Math.round` on an (idealised) real value: round half toward +∞. -/
def jround (q : ℚ) : ℤ := ⌊q + 1/2⌋

/-- The unsigned 32-bit value (`x >>> 0`) of a JS number that is an integer. -/
def toUint32 (n : ℤ) : ℕ := (n % (2 ^ 32 : ℤ)).toNat

/-- Reinterpret an unsigned 32-bit value as a signed 32-bit integer. -/
def asInt32 (u : ℕ) : ℤ := if u < 2 ^ 31 then (u : ℤ) else (u : ℤ) - 2 ^ 32

/-- JS `ToInt32` on a JS number that is an integer (`x | 0`). -/
def toInt32 (n : ℤ) : ℤ := asInt32 (toUint32 n)

namespace GhostRecorder

/-- Char codes of `ENCRYPT_KEY = 'ChipsRacing2024!'` (src/unnamed/part_002). -/
def ENCRYPT_KEY : List ℕ := [67, 104, 105, 112, 115, 82, 97, 99, 105, 110, 103, 50, 48, 50, 52, 33]

/-- `SNAPSHOT_INTERVAL = 50` ms (20 Hz). -/
def SNAPSHOT_INTERVAL : ℤ := 50

/-- `KEYFRAME_INTERVAL = 1000` ms. -/
def KEYFRAME_INTERVAL : ℤ := 1000

/-- A motion sample as recorded by `recordFrame`: integer time (ms), rational
position, heading and velocity. -/
structure Snapshot where
  time : ℤ
  x : ℚ
  z : ℚ
  rotY : ℚ
  vx : ℚ
  vz : ℚ
deriving DecidableEq

/-- Body of the `encrypt` loop: XOR byte `i` with key byte `i % keyLength`. -/
def encryptFrom (i : ℕ) : List ℕ → List ℕ
  | [] => []
  | b :: rest => (b ^^^ ENCRYPT_KEY.getD (i % ENCRYPT_KEY.length) 0) :: encryptFrom (i + 1) rest

/-- `encrypt(data)`: byte-wise XOR against the fixed repeating key. -/
def encrypt (data : List ℕ) : List ℕ := encryptFrom 0 data

/-- `decrypt(data)` is literally `this.encrypt(data)` in the source. -/
def decrypt (data : List ℕ) : List ℕ := encrypt data

theorem encryptFrom_encryptFrom (i : ℕ) (l : List ℕ) :
    encryptFrom i (encryptFrom i l) = l := by
  induction l generalizing i with
  | nil => rfl
  | cons b rest ih =>
      simp [encryptFrom, Nat.xor_assoc, Nat.xor_self, Nat.xor_zero, ih]

theorem encrypt_length (l : List ℕ) : (encrypt l).length = l.length := by
  suffices h : ∀ i l, (encryptFrom i l).length = l.length from h 0 l
  intro i l
  induction l generalizing i with
  | nil => rfl
  | cons b rest ih => simp [encryptFrom, ih]

end GhostRecorder

/-- Claim C7: the obfuscation transform is a self-inverse involution: for every
byte sequence, including the empty one, applying the XOR transform twice yields
the original bytes, and `decrypt(encrypt(x)) = x`. -/
theorem c7_encrypt_involution (data : List ℕ) :
    GhostRecorder.encrypt (GhostRecorder.encrypt data) = data ∧
      GhostRecorder.decrypt (GhostRecorder.encrypt data) = data := by
  refine ⟨GhostRecorder.encryptFrom_encryptFrom 0 data, ?_⟩
  exact GhostRecorder.encryptFrom_encryptFrom 0 data

/-- XOR against an all-ones mask of width `n` complements within the width. -/
theorem xor_allones {n x : ℕ} (h : x < 2 ^ n) : x ^^^ (2 ^ n - 1) = 2 ^ n - 1 - x := by
  have hx1 : x + 1 ≤ 2 ^ n := h
  have hrw : 2 ^ n - 1 - x = 2 ^ n - (x + 1) := by omega
  rw [hrw]
  apply Nat.eq_of_testBit_eq
  intro i
  rw [Nat.testBit_xor, Nat.testBit_two_pow_sub_one, Nat.testBit_two_pow_sub_succ h]
  by_cases hi : i < n
  · simp [hi]
  · have hxle : x < 2 ^ i := lt_of_lt_of_le h (Nat.pow_le_pow_right (by norm_num) (by omega))
    simp [hi, Nat.testBit_lt_two_pow hxle]

/-- Bitwise OR of disjoint chunks is addition: a low part below `2 ^ n` ORed
with a multiple of `2 ^ n`. -/
theorem or_disj {a n : ℕ} (b : ℕ) (h : a < 2 ^ n) : a ||| b * 2 ^ n = a + b * 2 ^ n := by
  have h2 := Nat.mul_add_lt_is_or h b
  rw [Nat.or_comm, Nat.mul_comm b (2 ^ n)]
  omega

namespace GhostRecorder

/-- The loop of `writeVarInt` after `Math.abs(Math.round(value))`:
`while (value >= 0x80) { bytes.push((value & 0x7F) | 0x80); value >>>= 7 }`
then `bytes.push(value)`.  JS `&` works on `ToInt32(value)` (low 32 bits are
unchanged, so `value & 0x7F = value % 2^32 % 128`, and `(v & 0x7F) | 0x80`
is `v % 2^32 % 128 + 128`), and `>>>` is `ToUint32(value) >> 7`.  The loop is
written with a structural fuel argument so that it evaluates in the kernel;
after the first iteration the value is below `2^25`, so the loop runs at most
five iterations and fuel `6` reproduces the JS loop for every input (the
fuel-0 fallback is unreachable, see `writeVarIntLoop_eq`). -/
def writeVarIntLoopF : ℕ → ℕ → List ℕ
  | 0, v => [v]
  | fuel + 1, v =>
      if v < 128 then [v]
      else (v % 2 ^ 32 % 128 + 128) :: writeVarIntLoopF fuel (v % 2 ^ 32 / 128)

/-- The `writeVarInt` loop with enough fuel for every input. -/
def writeVarIntLoop (v : ℕ) : List ℕ := writeVarIntLoopF 6 v

theorem writeVarIntLoopF_succ (f v : ℕ) :
    writeVarIntLoopF (f + 1) v =
      if v < 128 then [v]
      else (v % 2 ^ 32 % 128 + 128) :: writeVarIntLoopF f (v % 2 ^ 32 / 128) := rfl

theorem writeVarIntLoopF_mono (f v : ℕ) (h : v < 128 ^ f) :
    writeVarIntLoopF f v = writeVarIntLoopF (f + 1) v := by
  induction f generalizing v with
  | zero =>
      have hv : v = 0 := by simpa using h
      subst hv
      rfl
  | succ f ih =>
      rw [writeVarIntLoopF_succ, writeVarIntLoopF_succ]
      by_cases h128 : v < 128
      · simp [h128]
      · have hrec : v % 2 ^ 32 / 128 < 128 ^ f := by
          have h1 : v % 2 ^ 32 / 128 ≤ v / 128 := Nat.div_le_div_right (Nat.mod_le v (2 ^ 32))
          have h2 : v / 128 < 128 ^ f := by
            rw [Nat.div_lt_iff_lt_mul (by norm_num)]
            calc v < 128 ^ (f + 1) := h
            _ = 128 ^ f * 128 := by ring
          omega
        simp only [if_neg h128]
        rw [ih _ hrec]

theorem writeVarIntLoopF_of_le (f g v : ℕ) (hfg : f ≤ g) (h : v < 128 ^ f) :
    writeVarIntLoopF f v = writeVarIntLoopF g v := by
  induction g with
  | zero =>
      have : f = 0 := by omega
      subst this
      rfl
  | succ g ih =>
      rcases Nat.lt_or_ge f (g + 1) with hlt | hge
      · have hfg2 : f ≤ g := by omega
        have hvg : v < 128 ^ g := lt_of_lt_of_le h (Nat.pow_le_pow_right (by norm_num) hfg2)
        rw [ih hfg2, writeVarIntLoopF_mono g v hvg]
      · have : f = g + 1 := by omega
        subst this
        rfl

/-- `writeVarIntLoop` satisfies the JS loop recurrence for every input. -/
theorem writeVarIntLoop_eq (v : ℕ) :
    writeVarIntLoop v =
      if v < 128 then [v]
      else (v % 2 ^ 32 % 128 + 128) :: writeVarIntLoop (v % 2 ^ 32 / 128) := by
  unfold writeVarIntLoop
  have h6 : (6 : ℕ) = 5 + 1 := rfl
  rw [h6, writeVarIntLoopF_succ]
  by_cases h128 : v < 128
  · simp [h128]
  · have hrec : v % 2 ^ 32 / 128 < 128 ^ 5 := by
      have h1 : v % 2 ^ 32 / 128 < 2 ^ 32 / 128 :=
        Nat.div_lt_div_of_lt_of_dvd (by norm_num) (Nat.mod_lt _ (by norm_num))
      calc v % 2 ^ 32 / 128 < 2 ^ 32 / 128 := h1
      _ ≤ 128 ^ 5 := by norm_num
    simp only [if_neg h128]
    rw [writeVarIntLoopF_of_le 5 6 _ (by norm_num) hrec]

/-- `writeVarInt(bytes, value)`: `value = Math.abs(Math.round(value))`, then the
7-bit continuation loop.  Returns the pushed bytes. -/
def writeVarInt (value : ℤ) : List ℕ := writeVarIntLoop value.natAbs

/-- `(value << 1) ^ (value >> 31)` under JS 32-bit operator semantics: both
shifts coerce to int32; the XOR result is again a signed 32-bit number. -/
def zigzag32 (value : ℤ) : ℤ :=
  let shl1 : ℕ := toUint32 (value * 2)
  let shr31 : ℕ := if toInt32 value < 0 then 2 ^ 32 - 1 else 0
  asInt32 (shl1 ^^^ shr31)

/-- `writeSignedVarInt(bytes, value)`: zigzag encode, then `writeVarInt`. -/
def writeSignedVarInt (value : ℤ) : List ℕ := writeVarInt (zigzag32 value)

/-- The do-while loop of `readVarInt`, on the unsigned 32-bit view of the
`value` accumulator.  Reading past the end of a `Uint8Array` yields
`undefined`: `undefined & 0x7F` contributes `0` and `undefined >= 0x80` is
false, so the empty-list case returns the accumulator unchanged.  A byte's
contribution is `(byte & 0x7F) << shift` on int32, i.e. unsigned
`(b % 128 * 2 ^ (shift % 32)) % 2 ^ 32`, ORed into the accumulator. -/
def readVarIntLoop : List ℕ → ℕ → ℕ → ℕ × List ℕ
  | [], acc, _ => (acc, [])
  | b :: rest, acc, shift =>
      let acc' := acc ||| b % 128 * 2 ^ (shift % 32) % 2 ^ 32
      if 128 ≤ b then readVarIntLoop rest acc' (shift + 7) else (acc', rest)

/-- `readVarInt`, exposing the unsigned 32-bit view of the accumulator. -/
def readVarIntU (l : List ℕ) : ℕ × List ℕ := readVarIntLoop l 0 0

/-- `readVarInt(bytes, offset)`: the JS number it returns is the signed 32-bit
accumulator.  Also returns the unconsumed remainder of the byte list. -/
def readVarInt (l : List ℕ) : ℤ × List ℕ :=
  ((asInt32 (readVarIntU l).1), (readVarIntU l).2)

/-- `readSignedVarInt`: `(zigzag >>> 1) ^ -(zigzag & 1)`.  With `u` the
unsigned 32-bit view of `zigzag`: `zigzag >>> 1 = u / 2`, `zigzag & 1 = u % 2`,
and `-0`/`-1` have unsigned views `0` and `2^32 - 1`; the int32 XOR of the two
is read back as a signed number. -/
def readSignedVarInt (l : List ℕ) : ℤ × List ℕ :=
  let u := (readVarIntU l).1
  (asInt32 (u / 2 ^^^ (if u % 2 = 1 then 2 ^ 32 - 1 else 0)), (readVarIntU l).2)

theorem readVarIntLoop_write (v : ℕ) (rest : List ℕ) (acc shift : ℕ)
    (hv : v * 2 ^ shift < 2 ^ 32) (hs : shift < 32) (hacc : acc < 2 ^ shift) :
    readVarIntLoop (writeVarIntLoop v ++ rest) acc shift = (acc + v * 2 ^ shift, rest) := by
  induction v using Nat.strong_induction_on generalizing rest acc shift with
  | _ v ih =>
    by_cases h : v < 128
    · rw [writeVarIntLoop_eq, if_pos h]
      have hmod : v % 128 = v := Nat.mod_eq_of_lt h
      have hsm : shift % 32 = shift := Nat.mod_eq_of_lt hs
      have hlt : v * 2 ^ shift < 2 ^ 32 := hv
      simp only [List.cons_append, List.nil_append, readVarIntLoop, hmod, hsm,
        Nat.mod_eq_of_lt hlt, if_neg (by omega : ¬ 128 ≤ v)]
      rw [or_disj v hacc]
      simp
    · rw [writeVarIntLoop_eq, if_neg h]
      have hvlt : v < 2 ^ 32 := by
        have : 2 ^ shift ≥ 1 := Nat.one_le_two_pow
        nlinarith
      have hm32 : v % 2 ^ 32 = v := Nat.mod_eq_of_lt hvlt
      have hsm : shift % 32 = shift := Nat.mod_eq_of_lt hs
      have hb : 128 ≤ v % 128 + 128 := by omega
      have hchunk_lt : v % 128 * 2 ^ shift < 2 ^ 32 := by
        have : v % 128 ≤ v := Nat.mod_le v 128
        have : v % 128 * 2 ^ shift ≤ v * 2 ^ shift := Nat.mul_le_mul_right _ this
        omega
      have hs7 : shift + 7 < 32 := by
        by_contra hcon
        have h32 : 32 ≤ shift + 7 := by omega
        have : (2 : ℕ) ^ 32 ≤ 2 ^ (shift + 7) := Nat.pow_le_pow_right (by norm_num) h32
        have h128 : (128 : ℕ) * 2 ^ shift = 2 ^ (shift + 7) := by ring
        have : 128 * 2 ^ shift ≤ v * 2 ^ shift := Nat.mul_le_mul_right _ (by omega)
        omega
      have hacc' : acc ||| v % 128 * 2 ^ shift < 2 ^ (shift + 7) := by
        rw [or_disj _ hacc]
        have : v % 128 < 128 := Nat.mod_lt _ (by norm_num)
        have : v % 128 * 2 ^ shift ≤ 127 * 2 ^ shift := Nat.mul_le_mul_right _ (by omega)
        have h128 : (128 : ℕ) * 2 ^ shift = 2 ^ (shift + 7) := by ring
        omega
      have hrec : v / 128 * 2 ^ (shift + 7) < 2 ^ 32 := by
        have heq : v / 128 * 2 ^ (shift + 7) = v / 128 * 128 * 2 ^ shift := by ring
        have : v / 128 * 128 ≤ v := Nat.div_mul_le_self v 128
        have : v / 128 * 128 * 2 ^ shift ≤ v * 2 ^ shift := Nat.mul_le_mul_right _ this
        omega
      have ihv : v / 128 < v := Nat.div_lt_self (by omega) (by norm_num)
      have hmm : v % 128 % 128 = v % 128 := Nat.mod_eq_of_lt (Nat.mod_lt _ (by norm_num))
      simp only [List.cons_append, List.append_eq, readVarIntLoop, hm32, hsm,
        Nat.add_mod_right, hmm, Nat.mod_eq_of_lt hchunk_lt, if_pos hb]
      rw [ih (v / 128) ihv rest _ (shift + 7) hrec hs7 hacc']
      rw [or_disj _ hacc]
      have hsplit : v = 128 * (v / 128) + v % 128 := (Nat.div_add_mod v 128).symm ▸ by omega
      have : acc + v % 128 * 2 ^ shift + v / 128 * 2 ^ (shift + 7) = acc + v * 2 ^ shift := by
        have h7 : (2 : ℕ) ^ (shift + 7) = 128 * 2 ^ shift := by ring
        rw [h7]
        nlinarith [hsplit]
      rw [this]

theorem readVarIntLoop_write_rest (v : ℕ) (rest : List ℕ) (acc shift : ℕ) :
    (readVarIntLoop (writeVarIntLoop v ++ rest) acc shift).2 = rest := by
  induction v using Nat.strong_induction_on generalizing rest acc shift with
  | _ v ih =>
    by_cases h : v < 128
    · rw [writeVarIntLoop_eq, if_pos h]
      have hmod : v % 2 ^ 32 % 128 = v % 128 := by
        rw [Nat.mod_eq_of_lt (lt_of_lt_of_le h (by norm_num))]
      simp [readVarIntLoop, if_neg (by omega : ¬ 128 ≤ v)]
    · rw [writeVarIntLoop_eq, if_neg h]
      have hb : 128 ≤ v % 2 ^ 32 % 128 + 128 := by omega
      have ihv : v % 2 ^ 32 / 128 < v := by
        have h1 : v % 2 ^ 32 / 128 ≤ v / 128 := Nat.div_le_div_right (Nat.mod_le v (2 ^ 32))
        have h2 : v / 128 < v := Nat.div_lt_self (by omega) (by norm_num)
        omega
      simp only [List.cons_append, readVarIntLoop, if_pos hb]
      exact ih _ ihv rest _ _

/-- Reading back a written varint whose magnitude is at most `2^31` recovers
the value exactly and consumes exactly the written bytes. -/
theorem readVarIntU_write {v : ℕ} (hv : v ≤ 2 ^ 31) (rest : List ℕ) :
    readVarIntU (writeVarIntLoop v ++ rest) = (v, rest) := by
  have := readVarIntLoop_write v rest 0 0 (by simpa using lt_of_le_of_lt hv (by norm_num))
    (by norm_num) (by norm_num)
  simpa [readVarIntU] using this

end GhostRecorder

namespace GhostRecorder

theorem zigzag32_natAbs_nonneg {v : ℤ} (h0 : 0 ≤ v) (h2 : v ≤ 2 ^ 30) :
    (zigzag32 v).natAbs = (2 * v).toNat := by
  have hU : toUint32 (v * 2) = (2 * v).toNat := by
    unfold toUint32
    have : v * 2 % (2 ^ 32 : ℤ) = 2 * v := by omega
    rw [this]
  have hI : ¬ toInt32 v < 0 := by
    unfold toInt32 toUint32 asInt32
    have hm : v % (2 ^ 32 : ℤ) = v := by omega
    rw [hm]
    have hlt : v.toNat < 2 ^ 31 := by omega
    rw [if_pos hlt]
    omega
  simp only [zigzag32, hU, hI, if_false, Nat.xor_zero]
  unfold asInt32
  by_cases hcase : (2 * v).toNat < 2 ^ 31
  · rw [if_pos hcase]
    omega
  · rw [if_neg hcase]
    omega

theorem zigzag32_natAbs_neg {v : ℤ} (h1 : -(2 ^ 30) ≤ v) (h0 : v < 0) :
    (zigzag32 v).natAbs = (-2 * v - 1).toNat := by
  have hU : toUint32 (v * 2) = (2 * v + 2 ^ 32).toNat := by
    unfold toUint32
    have : v * 2 % (2 ^ 32 : ℤ) = 2 * v + 2 ^ 32 := by omega
    rw [this]
  have hI : toInt32 v < 0 := by
    unfold toInt32 toUint32 asInt32
    have hm : v % (2 ^ 32 : ℤ) = v + 2 ^ 32 := by omega
    rw [hm]
    have hlt : ¬ (v + 2 ^ 32).toNat < 2 ^ 31 := by omega
    rw [if_neg hlt]
    omega
  have hxlt : (2 * v + 2 ^ 32).toNat < 2 ^ 32 := by omega
  simp only [zigzag32, hU, hI, if_true]
  rw [xor_allones hxlt]
  unfold asInt32
  have hval : 2 ^ 32 - 1 - (2 * v + 2 ^ 32).toNat = (-2 * v - 1).toNat := by omega
  rw [hval]
  have hlt2 : (-2 * v - 1).toNat < 2 ^ 31 := by omega
  rw [if_pos hlt2]
  omega

end GhostRecorder

/-- Claim C9 (amended): writing a signed integer `v` with the zigzag signed
varint encoder and reading it back recovers exactly `v`, provided
`-2^30 ≤ v ≤ 2^30`.  (Outside that range the JS 32-bit `<<` in the zigzag
step combined with `Math.abs` in `writeVarInt` destroys information, see the
counterexample.) -/
theorem c9_signed_varint_roundtrip (v : ℤ) (h1 : -(2 ^ 30) ≤ v) (h2 : v ≤ 2 ^ 30) :
    GhostRecorder.readSignedVarInt (GhostRecorder.writeSignedVarInt v) = (v, []) := by
  unfold GhostRecorder.writeSignedVarInt GhostRecorder.writeVarInt
  rcases le_or_lt 0 v with hv0 | hv0
  · rw [GhostRecorder.zigzag32_natAbs_nonneg hv0 h2]
    set u : ℕ := (2 * v).toNat with hu
    have hule : u ≤ 2 ^ 31 := by omega
    have hr : GhostRecorder.readVarIntU (GhostRecorder.writeVarIntLoop u) = (u, []) := by
      have := GhostRecorder.readVarIntU_write hule []
      simpa using this
    unfold GhostRecorder.readSignedVarInt
    rw [hr]
    have heven : ¬ u % 2 = 1 := by omega
    simp only [if_neg heven, Nat.xor_zero]
    have hdiv : u / 2 = v.toNat := by omega
    rw [hdiv]
    unfold asInt32
    have hvlt : v.toNat < 2 ^ 31 := by omega
    rw [if_pos hvlt]
    simp only [Prod.mk.injEq]
    exact ⟨by omega, trivial⟩
  · rw [GhostRecorder.zigzag32_natAbs_neg h1 hv0]
    set u : ℕ := (-2 * v - 1).toNat with hu
    have hule : u ≤ 2 ^ 31 := by omega
    have hr : GhostRecorder.readVarIntU (GhostRecorder.writeVarIntLoop u) = (u, []) := by
      have := GhostRecorder.readVarIntU_write hule []
      simpa using this
    unfold GhostRecorder.readSignedVarInt
    rw [hr]
    have hodd : u % 2 = 1 := by omega
    simp only [if_pos hodd]
    have hdivlt : u / 2 < 2 ^ 32 := by omega
    rw [xor_allones hdivlt]
    unfold asInt32
    have hval : 2 ^ 32 - 1 - u / 2 = (2 ^ 32 + v).toNat := by omega
    rw [hval]
    have hge : ¬ (2 ^ 32 + v).toNat < 2 ^ 31 := by omega
    rw [if_neg hge]
    simp only [Prod.mk.injEq]
    exact ⟨by omega, trivial⟩

/-- Claim C9 witness: the round-trip theorem applied at `v = -3`. -/
theorem c9_signed_varint_roundtrip_witness :
    (-(2 ^ 30) ≤ (-3 : ℤ)) ∧ ((-3 : ℤ) ≤ 2 ^ 30) ∧
      GhostRecorder.readSignedVarInt (GhostRecorder.writeSignedVarInt (-3)) = (-3, []) :=
  ⟨by norm_num, by norm_num, c9_signed_varint_roundtrip (-3) (by norm_num) (by norm_num)⟩

/-- Claim C9 counterexample: the signed 32-bit integer `2^31 - 1 = 2147483647`
does not survive the round-trip: it is written as the two-byte varint of `2`
(the JS `<<` wraps the zigzag value to `-2` and `Math.abs` turns it into `2`)
and reads back as `1`. -/
theorem c9_counterexample :
    GhostRecorder.readSignedVarInt (GhostRecorder.writeSignedVarInt 2147483647) = (1, []) ∧
      (1 : ℤ) ≠ 2147483647 := by
  constructor
  · decide
  · decide

namespace GhostRecorder

/-- `POSITION_PRECISION = 100` (0.01 unit). -/
def POSITION_PRECISION : ℚ := 100

/-- `ROTATION_PRECISION = 1000` (0.001 rad). -/
def ROTATION_PRECISION : ℚ := 1000

/-- The three tagged frame variants built by `encode` and consumed by
`serializeFrames`: keyframes (full state), run-length frames (count of
zero-residual samples) and delta batches (lists of rounded residual
tuples `(dx, dz, drot, dvx, dvz)`). -/
inductive Frame where
  | key (s : Snapshot)
  | run (count : ℕ)
  | deltas (ds : List (ℤ × ℤ × ℤ × ℤ × ℤ))
deriving DecidableEq

/-- The five signed varints written per residual tuple of a delta batch. -/
def serializeResiduals : List (ℤ × ℤ × ℤ × ℤ × ℤ) → List ℕ
  | [] => []
  | d :: ds =>
      writeSignedVarInt d.1 ++ writeSignedVarInt d.2.1 ++ writeSignedVarInt d.2.2.1 ++
        writeSignedVarInt d.2.2.2.1 ++ writeSignedVarInt d.2.2.2.2 ++ serializeResiduals ds

/-- `serializeFrames` body for one frame: a 1-byte tag then varints. -/
def serializeFrame : Frame → List ℕ
  | .key s =>
      1 :: (writeVarInt s.time ++
        writeSignedVarInt (jround (s.x * POSITION_PRECISION)) ++
        writeSignedVarInt (jround (s.z * POSITION_PRECISION)) ++
        writeSignedVarInt (jround (s.rotY * ROTATION_PRECISION)) ++
        writeSignedVarInt (jround (s.vx * POSITION_PRECISION)) ++
        writeSignedVarInt (jround (s.vz * POSITION_PRECISION)))
  | .run count => 2 :: writeVarInt (count : ℤ)
  | .deltas ds => 3 :: (writeVarInt (ds.length : ℤ) ++ serializeResiduals ds)

/-- `serializeFrames(frames)`: concatenation of the per-frame bytes. -/
def serializeFrames : List Frame → List ℕ
  | [] => []
  | f :: rest => serializeFrame f ++ serializeFrames rest

/-- The keyframe branch of the decode loop: read time and the five quantised
signed values, dequantise. -/
def readKeySnapshot (bytes : List ℕ) : Snapshot × List ℕ :=
  let r1 := readVarInt bytes
  let r2 := readSignedVarInt r1.2
  let r3 := readSignedVarInt r2.2
  let r4 := readSignedVarInt r3.2
  let r5 := readSignedVarInt r4.2
  let r6 := readSignedVarInt r5.2
  (⟨r1.1, (r2.1 : ℚ) / POSITION_PRECISION, (r3.1 : ℚ) / POSITION_PRECISION,
    (r4.1 : ℚ) / ROTATION_PRECISION, (r5.1 : ℚ) / POSITION_PRECISION,
    (r6.1 : ℚ) / POSITION_PRECISION⟩, r6.2)

/-- The run-length branch of the decode loop: each repetition re-derives
position by linear prediction over the nominal interval and advances time by
`SNAPSHOT_INTERVAL`. -/
def expandRun (last : Snapshot) : ℕ → List Snapshot
  | 0 => []
  | n + 1 =>
      let dt : ℚ := (SNAPSHOT_INTERVAL : ℚ) / 1000
      let s : Snapshot :=
        { time := last.time + SNAPSHOT_INTERVAL,
          x := last.x + last.vx * dt,
          z := last.z + last.vz * dt,
          rotY := last.rotY, vx := last.vx, vz := last.vz }
      s :: expandRun s n

/-- The delta-batch branch of the decode loop: read `count` residual tuples,
each added onto the linear prediction from the previous reconstructed sample.
Returns the new samples, the new `lastSnap` and the remaining bytes. -/
def readDeltas (last : Snapshot) : ℕ → List ℕ → List Snapshot × Snapshot × List ℕ
  | 0, bytes => ([], last, bytes)
  | n + 1, bytes =>
      let r1 := readSignedVarInt bytes
      let r2 := readSignedVarInt r1.2
      let r3 := readSignedVarInt r2.2
      let r4 := readSignedVarInt r3.2
      let r5 := readSignedVarInt r4.2
      let dt : ℚ := (SNAPSHOT_INTERVAL : ℚ) / 1000
      let s : Snapshot :=
        { time := last.time + SNAPSHOT_INTERVAL,
          x := last.x + last.vx * dt + (r1.1 : ℚ) / POSITION_PRECISION,
          z := last.z + last.vz * dt + (r2.1 : ℚ) / POSITION_PRECISION,
          rotY := last.rotY + (r3.1 : ℚ) / ROTATION_PRECISION,
          vx := last.vx + (r4.1 : ℚ) / POSITION_PRECISION,
          vz := last.vz + (r5.1 : ℚ) / POSITION_PRECISION }
      let rest := readDeltas s n r5.2
      (s :: rest.1, rest.2)

/-- The `while (offset.pos < bytes.length)` decode loop.  One iteration always
consumes at least the marker byte, so fuel `length + 1` reproduces the loop
exactly (the fuel-0 fallback is unreachable, see `parseLoopF_irrel`).
`none` models the `TypeError` thrown when a run or delta frame with positive
count dereferences a null `lastSnap`; unknown markers are skipped; reads past
the end of the byte array behave as reads of `undefined` (see
`readVarIntLoop`). -/
def parseLoopF : ℕ → List ℕ → Option Snapshot → Option (List Snapshot)
  | 0, _, _ => some []
  | _ + 1, [], _ => some []
  | fuel + 1, marker :: rest, lastSnap =>
      if marker = 1 then
        let r := readKeySnapshot rest
        (parseLoopF fuel r.2 (some r.1)).map (fun out => r.1 :: out)
      else if marker = 2 then
        let c := readVarInt rest
        if c.1.toNat = 0 then parseLoopF fuel c.2 lastSnap
        else
          match lastSnap with
          | none => none
          | some l =>
              let snaps := expandRun l c.1.toNat
              (parseLoopF fuel c.2 (some (snaps.getLastD l))).map (fun out => snaps ++ out)
      else if marker = 3 then
        let c := readVarInt rest
        if c.1.toNat = 0 then parseLoopF fuel c.2 lastSnap
        else
          match lastSnap with
          | none => none
          | some l =>
              let r := readDeltas l c.1.toNat c.2
              (parseLoopF fuel r.2.2 (some r.2.1)).map (fun out => r.1 ++ out)
      else parseLoopF fuel rest lastSnap

/-- The decode loop with enough fuel for its byte input. -/
def parseLoop (l : List ℕ) (lastSnap : Option Snapshot) : Option (List Snapshot) :=
  parseLoopF (l.length + 1) l lastSnap

theorem readVarIntLoop_length_le (l : List ℕ) :
    ∀ acc shift, (readVarIntLoop l acc shift).2.length ≤ l.length := by
  induction l with
  | nil => intro acc shift; simp [readVarIntLoop]
  | cons b rest ih =>
      intro acc shift
      by_cases hb : 128 ≤ b
      · simp only [readVarIntLoop, if_pos hb]
        exact le_trans (ih _ _) (by simp)
      · simp only [readVarIntLoop, if_neg hb]
        simp

theorem readVarInt_length_le (l : List ℕ) : (readVarInt l).2.length ≤ l.length :=
  readVarIntLoop_length_le l 0 0

theorem readSignedVarInt_length_le (l : List ℕ) : (readSignedVarInt l).2.length ≤ l.length :=
  readVarIntLoop_length_le l 0 0

theorem readKeySnapshot_length_le (l : List ℕ) : (readKeySnapshot l).2.length ≤ l.length := by
  unfold readKeySnapshot
  refine le_trans (readSignedVarInt_length_le _) ?_
  refine le_trans (readSignedVarInt_length_le _) ?_
  refine le_trans (readSignedVarInt_length_le _) ?_
  refine le_trans (readSignedVarInt_length_le _) ?_
  refine le_trans (readSignedVarInt_length_le _) ?_
  exact readVarInt_length_le _

theorem readDeltas_length_le (n : ℕ) :
    ∀ (last : Snapshot) (bytes : List ℕ), (readDeltas last n bytes).2.2.length ≤ bytes.length := by
  induction n with
  | zero => intro last bytes; simp [readDeltas]
  | succ n ih =>
      intro last bytes
      unfold readDeltas
      refine le_trans (ih _ _) ?_
      refine le_trans (readSignedVarInt_length_le _) ?_
      refine le_trans (readSignedVarInt_length_le _) ?_
      refine le_trans (readSignedVarInt_length_le _) ?_
      refine le_trans (readSignedVarInt_length_le _) ?_
      exact readSignedVarInt_length_le _

theorem parseLoopF_irrel (f : ℕ) :
    ∀ (g : ℕ) (l : List ℕ) (lastSnap : Option Snapshot), l.length < f → l.length < g →
      parseLoopF f l lastSnap = parseLoopF g l lastSnap := by
  induction f with
  | zero => intro g l lastSnap hf hg; omega
  | succ f ih =>
      intro g l lastSnap hf hg
      match g, l with
      | g + 1, [] => rfl
      | g + 1, marker :: rest =>
        have hrest_f : rest.length < f := by simpa using hf
        have hrest_g : rest.length < g := by simpa using hg
        show parseLoopF (f + 1) (marker :: rest) lastSnap
          = parseLoopF (g + 1) (marker :: rest) lastSnap
        simp only [parseLoopF]
        by_cases h1 : marker = 1
        · simp only [if_pos h1]
          rw [ih _ _ _ (lt_of_le_of_lt (readKeySnapshot_length_le rest) hrest_f)
            (lt_of_le_of_lt (readKeySnapshot_length_le rest) hrest_g)]
        · simp only [if_neg h1]
          by_cases h2 : marker = 2
          · simp only [if_pos h2]
            have hc_f := lt_of_le_of_lt (readVarInt_length_le rest) hrest_f
            have hc_g := lt_of_le_of_lt (readVarInt_length_le rest) hrest_g
            by_cases hz : (readVarInt rest).1.toNat = 0
            · simp only [if_pos hz]
              exact ih _ _ _ hc_f hc_g
            · simp only [if_neg hz]
              match lastSnap with
              | none => rfl
              | some l0 => simp only [ih _ _ _ hc_f hc_g]
          · simp only [if_neg h2]
            by_cases h3 : marker = 3
            · simp only [if_pos h3]
              have hc_f := lt_of_le_of_lt (readVarInt_length_le rest) hrest_f
              have hc_g := lt_of_le_of_lt (readVarInt_length_le rest) hrest_g
              by_cases hz : (readVarInt rest).1.toNat = 0
              · simp only [if_pos hz]
                exact ih _ _ _ hc_f hc_g
              · simp only [if_neg hz]
                match lastSnap with
                | none => rfl
                | some l0 =>
                    have hd0 := readDeltas_length_le ((readVarInt rest).1.toNat) l0 ((readVarInt rest).2)
                    have hd_f := lt_of_le_of_lt (le_trans hd0 (readVarInt_length_le rest)) hrest_f
                    have hd_g := lt_of_le_of_lt (le_trans hd0 (readVarInt_length_le rest)) hrest_g
                    simp only [ih _ _ _ hd_f hd_g]
            · simp only [if_neg h3]
              exact ih _ _ _ hrest_f hrest_g

end GhostRecorder

namespace GhostRecorder

theorem parseLoopF_succ_cons (fuel marker : ℕ) (rest : List ℕ) (lastSnap : Option Snapshot) :
    parseLoopF (fuel + 1) (marker :: rest) lastSnap =
      if marker = 1 then
        let r := readKeySnapshot rest
        (parseLoopF fuel r.2 (some r.1)).map (fun out => r.1 :: out)
      else if marker = 2 then
        let c := readVarInt rest
        if c.1.toNat = 0 then parseLoopF fuel c.2 lastSnap
        else
          match lastSnap with
          | none => none
          | some l =>
              let snaps := expandRun l c.1.toNat
              (parseLoopF fuel c.2 (some (snaps.getLastD l))).map (fun out => snaps ++ out)
      else if marker = 3 then
        let c := readVarInt rest
        if c.1.toNat = 0 then parseLoopF fuel c.2 lastSnap
        else
          match lastSnap with
          | none => none
          | some l =>
              let r := readDeltas l c.1.toNat c.2
              (parseLoopF fuel r.2.2 (some r.2.1)).map (fun out => r.1 ++ out)
      else parseLoopF fuel rest lastSnap := rfl

theorem parseLoop_nil (lastSnap : Option Snapshot) : parseLoop [] lastSnap = some [] := rfl

theorem parseLoop_key (rest : List ℕ) (lastSnap : Option Snapshot) :
    parseLoop (1 :: rest) lastSnap =
      (parseLoop (readKeySnapshot rest).2 (some (readKeySnapshot rest).1)).map
        (fun out => (readKeySnapshot rest).1 :: out) := by
  unfold parseLoop
  have hlen : (1 :: rest : List ℕ).length + 1 = rest.length + 1 + 1 := by simp
  rw [hlen, parseLoopF_succ_cons]
  rw [if_pos rfl]
  simp only []
  rw [parseLoopF_irrel (rest.length + 1) ((readKeySnapshot rest).2.length + 1)
    (readKeySnapshot rest).2 (some (readKeySnapshot rest).1)
    (lt_of_le_of_lt (readKeySnapshot_length_le rest) (by omega)) (by omega)]

theorem parseLoop_run_zero (rest : List ℕ) (lastSnap : Option Snapshot)
    (hz : (readVarInt rest).1.toNat = 0) :
    parseLoop (2 :: rest) lastSnap = parseLoop (readVarInt rest).2 lastSnap := by
  unfold parseLoop
  have hlen : (2 :: rest : List ℕ).length + 1 = rest.length + 1 + 1 := by simp
  rw [hlen, parseLoopF_succ_cons]
  rw [if_neg (by norm_num : (2 : ℕ) ≠ 1), if_pos rfl]
  simp only [if_pos hz]
  rw [parseLoopF_irrel (rest.length + 1) ((readVarInt rest).2.length + 1)
    (readVarInt rest).2 lastSnap
    (lt_of_le_of_lt (readVarInt_length_le rest) (by omega)) (by omega)]

theorem parseLoop_run_none (rest : List ℕ) (hz : (readVarInt rest).1.toNat ≠ 0) :
    parseLoop (2 :: rest) none = none := by
  unfold parseLoop
  have hlen : (2 :: rest : List ℕ).length + 1 = rest.length + 1 + 1 := by simp
  rw [hlen, parseLoopF_succ_cons]
  rw [if_neg (by norm_num : (2 : ℕ) ≠ 1), if_pos rfl]
  simp only [if_neg hz]

theorem parseLoop_run_pos (rest : List ℕ) (l : Snapshot) (hz : (readVarInt rest).1.toNat ≠ 0) :
    parseLoop (2 :: rest) (some l) =
      (parseLoop (readVarInt rest).2
          (some ((expandRun l (readVarInt rest).1.toNat).getLastD l))).map
        (fun out => expandRun l (readVarInt rest).1.toNat ++ out) := by
  unfold parseLoop
  have hlen : (2 :: rest : List ℕ).length + 1 = rest.length + 1 + 1 := by simp
  rw [hlen, parseLoopF_succ_cons]
  rw [if_neg (by norm_num : (2 : ℕ) ≠ 1), if_pos rfl]
  simp only [if_neg hz]
  rw [parseLoopF_irrel (rest.length + 1) ((readVarInt rest).2.length + 1)
    (readVarInt rest).2 _
    (lt_of_le_of_lt (readVarInt_length_le rest) (by omega)) (by omega)]

theorem parseLoop_deltas_zero (rest : List ℕ) (lastSnap : Option Snapshot)
    (hz : (readVarInt rest).1.toNat = 0) :
    parseLoop (3 :: rest) lastSnap = parseLoop (readVarInt rest).2 lastSnap := by
  unfold parseLoop
  have hlen : (3 :: rest : List ℕ).length + 1 = rest.length + 1 + 1 := by simp
  rw [hlen, parseLoopF_succ_cons]
  rw [if_neg (by norm_num : (3 : ℕ) ≠ 1), if_neg (by norm_num : (3 : ℕ) ≠ 2), if_pos rfl]
  simp only [if_pos hz]
  rw [parseLoopF_irrel (rest.length + 1) ((readVarInt rest).2.length + 1)
    (readVarInt rest).2 lastSnap
    (lt_of_le_of_lt (readVarInt_length_le rest) (by omega)) (by omega)]

theorem parseLoop_deltas_none (rest : List ℕ) (hz : (readVarInt rest).1.toNat ≠ 0) :
    parseLoop (3 :: rest) none = none := by
  unfold parseLoop
  have hlen : (3 :: rest : List ℕ).length + 1 = rest.length + 1 + 1 := by simp
  rw [hlen, parseLoopF_succ_cons]
  rw [if_neg (by norm_num : (3 : ℕ) ≠ 1), if_neg (by norm_num : (3 : ℕ) ≠ 2), if_pos rfl]
  simp only [if_neg hz]

theorem parseLoop_deltas_pos (rest : List ℕ) (l : Snapshot) (hz : (readVarInt rest).1.toNat ≠ 0) :
    parseLoop (3 :: rest) (some l) =
      (parseLoop (readDeltas l (readVarInt rest).1.toNat (readVarInt rest).2).2.2
          (some (readDeltas l (readVarInt rest).1.toNat (readVarInt rest).2).2.1)).map
        (fun out => (readDeltas l (readVarInt rest).1.toNat (readVarInt rest).2).1 ++ out) := by
  unfold parseLoop
  have hlen : (3 :: rest : List ℕ).length + 1 = rest.length + 1 + 1 := by simp
  rw [hlen, parseLoopF_succ_cons]
  rw [if_neg (by norm_num : (3 : ℕ) ≠ 1), if_neg (by norm_num : (3 : ℕ) ≠ 2), if_pos rfl]
  simp only [if_neg hz]
  have hd0 := readDeltas_length_le ((readVarInt rest).1.toNat) l ((readVarInt rest).2)
  rw [parseLoopF_irrel (rest.length + 1)
    ((readDeltas l (readVarInt rest).1.toNat (readVarInt rest).2).2.2.length + 1)
    (readDeltas l (readVarInt rest).1.toNat (readVarInt rest).2).2.2 _
    (lt_of_le_of_lt (le_trans hd0 (readVarInt_length_le rest)) (by omega)) (by omega)]

theorem parseLoop_other (marker : ℕ) (rest : List ℕ) (lastSnap : Option Snapshot)
    (h1 : marker ≠ 1) (h2 : marker ≠ 2) (h3 : marker ≠ 3) :
    parseLoop (marker :: rest) lastSnap = parseLoop rest lastSnap := by
  unfold parseLoop
  have hlen : (marker :: rest : List ℕ).length + 1 = rest.length + 1 + 1 := by simp
  rw [hlen, parseLoopF_succ_cons]
  rw [if_neg h1, if_neg h2, if_neg h3]

/-- State of the `encode` walk over the samples: frames emitted so far, the
last keyframe, the previous sample (`null` exactly at `i = 0`), the pending
run length and the pending delta batch. -/
structure EncState where
  frames : List Frame
  lastKeyframe : Option Snapshot
  lastFrame : Option Snapshot
  runLength : ℕ
  pending : List (ℤ × ℤ × ℤ × ℤ × ℤ)
deriving DecidableEq

/-- One iteration of the `encode` loop.  `i === 0` is equivalent to
`lastFrame` being null, since every iteration assigns `lastFrame = snap`.
`(lastKeyframe?.time || 0)` agrees with `getD 0` (a zero time is falsy in JS
but `|| 0` then also yields `0`). -/
def encodeStep (st : EncState) (snap : Snapshot) : EncState :=
  let isKeyframe : Bool :=
    st.lastFrame.isNone ||
      decide (snap.time - ((st.lastKeyframe.map Snapshot.time).getD 0) ≥ KEYFRAME_INTERVAL)
  if isKeyframe then
    let frames1 := if st.runLength > 0 then st.frames ++ [Frame.run st.runLength] else st.frames
    let frames2 := if st.pending ≠ [] then frames1 ++ [Frame.deltas st.pending] else frames1
    { frames := frames2 ++ [Frame.key snap], lastKeyframe := some snap,
      lastFrame := some snap, runLength := 0, pending := [] }
  else
    match st.lastFrame with
    | none => st
    | some lastFrame =>
        let dt : ℚ := ((snap.time - lastFrame.time : ℤ) : ℚ) / 1000
        let predictedX := lastFrame.x + lastFrame.vx * dt
        let predictedZ := lastFrame.z + lastFrame.vz * dt
        let residualX := jround ((snap.x - predictedX) * POSITION_PRECISION)
        let residualZ := jround ((snap.z - predictedZ) * POSITION_PRECISION)
        let residualRot := jround ((snap.rotY - lastFrame.rotY) * ROTATION_PRECISION)
        let residualVx := jround ((snap.vx - lastFrame.vx) * POSITION_PRECISION)
        let residualVz := jround ((snap.vz - lastFrame.vz) * POSITION_PRECISION)
        if residualX = 0 ∧ residualZ = 0 ∧ |residualRot| < 5 ∧ residualVx = 0 ∧ residualVz = 0 then
          let frames1 := if st.pending ≠ [] then st.frames ++ [Frame.deltas st.pending] else st.frames
          { frames := frames1, lastKeyframe := st.lastKeyframe,
            lastFrame := some snap, runLength := st.runLength + 1, pending := [] }
        else
          let frames1 := if st.runLength > 0 then st.frames ++ [Frame.run st.runLength] else st.frames
          { frames := frames1, lastKeyframe := st.lastKeyframe, lastFrame := some snap,
            runLength := 0,
            pending := st.pending ++ [(residualX, residualZ, residualRot, residualVx, residualVz)] }

/-- Flush of pending run and delta batch at the end of `encode` (the run is
flushed before the delta batch, matching the source order). -/
def flushFrames (st : EncState) : List Frame :=
  let frames1 := if st.runLength > 0 then st.frames ++ [Frame.run st.runLength] else st.frames
  if st.pending ≠ [] then frames1 ++ [Frame.deltas st.pending] else frames1

/-- The frame list built by `encode(snapshots)` before serialisation. -/
def encodeFrames (snapshots : List Snapshot) : List Frame :=
  flushFrames (snapshots.foldl encodeStep ⟨[], none, none, 0, []⟩)

/-- `encode(snapshots)`: predictive coding into frames, serialisation, XOR
obfuscation.  (The base64 `btoa` transport wrapper is outside the byte-level
model; an empty input returns the empty string, i.e. no bytes.) -/
def encode (snapshots : List Snapshot) : List ℕ :=
  if snapshots = [] then []
  else encrypt (serializeFrames (encodeFrames snapshots))

/-- `decode(encoded)`: XOR decrypt then walk the tagged frames; the
surrounding `try/catch` turns a thrown `TypeError` (run or delta frame before
any keyframe) into the empty list.  (The base64 `atob` side is outside the
byte-level model.) -/
def decode (data : List ℕ) : List Snapshot :=
  (parseLoop (decrypt data) none).getD []

end GhostRecorder

/-- One step of the rolling hash used by both checksum implementations:
`hash = ((hash << 5) - hash + v) | 0` (JS 32-bit semantics). -/
def hashStep (hash v : ℤ) : ℤ := toInt32 (toInt32 (hash * 32) - hash + v)

/-- The exact rational value of the IEEE-754 double `Math.PI`. -/
def jsPI : ℚ := 884279719003555 / 281474976710656

namespace GhostRecorder

/-- `generateChecksum(snapshots, finalTime)`: the rolling hash folded over
every snapshot's quantised x and z, then the final time (`finalTime | 0`),
then the snapshot count.  The JS function renders the unsigned 32-bit value
as a zero-padded lowercase 8-digit hex string — an injective formatting of
the number returned here. -/
def generateChecksum (snapshots : List Snapshot) (finalTime : ℤ) : ℕ :=
  let h1 := snapshots.foldl
    (fun h snap => hashStep (hashStep h (jround (snap.x * 100))) (jround (snap.z * 100))) 0
  toUint32 (hashStep (hashStep h1 (toInt32 finalTime)) (snapshots.length : ℤ))

/-- The structured result of `validateClient`. -/
structure ValidationResult where
  valid : Bool
  errors : List String
deriving DecidableEq

/-- The time-order loop of `validateClient`: `lastTime` starts at `0` and each
snapshot with `snap.time < lastTime` rejects. -/
def timeOrderViolation : ℤ → List Snapshot → Bool
  | _, [] => false
  | lastTime, s :: rest => if s.time < lastTime then true else timeOrderViolation s.time rest

/-- The speed loop of `validateClient`: for consecutive snapshots,
`dt > 0 && dist / dt > 50` rejects, where `dist = sqrt(dx² + dz²)`.
For `dt > 0` the comparison `sqrt(dx² + dz²) / dt > 50` is equivalent to
`dx² + dz² > (50 · dt)²`, which avoids the irrational square root. -/
def speedViolation : List Snapshot → Bool
  | s1 :: s2 :: rest =>
      let dx := s2.x - s1.x
      let dz := s2.z - s1.z
      let dt : ℚ := ((s2.time - s1.time : ℤ) : ℚ) / 1000
      if 0 < dt ∧ dx ^ 2 + dz ^ 2 > (50 * dt) ^ 2 then true else speedViolation (s2 :: rest)
  | _ => false

/-- `validateClient(snapshots, finalTime)`: the four plausibility gates in
source order.  (The JS `!snapshots` null guard falls under the length check;
a null is not representable for a `List`.) -/
def validateClient (snapshots : List Snapshot) (finalTime : ℤ) : ValidationResult :=
  if snapshots.length < 50 then ⟨false, ["Recording too short"]⟩
  else if finalTime < 10000 then ⟨false, ["Impossible completion time"]⟩
  else if timeOrderViolation 0 snapshots then ⟨false, ["Snapshots out of order"]⟩
  else if speedViolation snapshots then ⟨false, ["Teleportation detected"]⟩
  else ⟨true, []⟩

/-- `lerpAngle(a, b, t)`: linear interpolation after a single conditional
±2π adjustment of the raw difference. -/
def lerpAngle (a b t : ℚ) : ℚ :=
  let diff := b - a
  let diff2 := if diff > jsPI then diff - jsPI * 2
    else if diff < -jsPI then diff + jsPI * 2 else diff
  a + diff2 * t

/-- The result of `getStateAtTime`: either the first snapshot object itself
(returned verbatim for early query times) or a freshly-built interpolated
state.  The JS `speed` field is `sqrt(prev.vx² + prev.vz²)`, an irrational
number; the embedding carries its square `speedSq`, which determines it. -/
inductive GhostState where
  | fromSnapshot (s : Snapshot)
  | interp (time x z rotY speedSq : ℚ)
deriving DecidableEq

/-- The `while (low < high - 1)` binary-search loop of `getStateAtTime`,
with a structural fuel argument (the gap `high - low` shrinks every
iteration, so fuel `snapshots.length` always suffices). -/
def bsearchF (snapshots : List Snapshot) (time : ℚ) : ℕ → ℕ → ℕ → ℕ × ℕ
  | 0, low, high => (low, high)
  | fuel + 1, low, high =>
      if low < high - 1 then
        let mid := (low + high) / 2
        if ((snapshots.getD mid ⟨0, 0, 0, 0, 0, 0⟩).time : ℚ) ≤ time then
          bsearchF snapshots time fuel mid high
        else bsearchF snapshots time fuel low mid
      else (low, high)

/-- `getStateAtTime(snapshots, time)`: `null` for an empty list, the first
snapshot verbatim for `time ≤` its time, `null` (playback finished) for
`time ≥` the last snapshot's time, otherwise binary search for the
bracketing pair and interpolate. -/
def getStateAtTime (snapshots : List Snapshot) (time : ℚ) : Option GhostState :=
  match snapshots with
  | [] => none
  | s0 :: _ =>
      if time ≤ (s0.time : ℚ) then some (.fromSnapshot s0)
      else if ((snapshots.getD (snapshots.length - 1) s0).time : ℚ) ≤ time then none
      else
        let lh := bsearchF snapshots time snapshots.length 0 (snapshots.length - 1)
        let prev := snapshots.getD lh.1 s0
        let next := snapshots.getD lh.2 s0
        let t := (time - (prev.time : ℚ)) / ((next.time : ℚ) - (prev.time : ℚ))
        some (.interp time (prev.x + (next.x - prev.x) * t) (prev.z + (next.z - prev.z) * t)
          (lerpAngle prev.rotY next.rotY t) (prev.vx ^ 2 + prev.vz ^ 2))

end GhostRecorder

/-! Server side: the Cloud Functions validator (src/functions/index.js). -/

namespace Server

/-- `ENCRYPT_KEY = 'ChipsRacing2024!'` on the server (same char codes). -/
def ENCRYPT_KEY : List ℕ := [67, 104, 105, 112, 115, 82, 97, 99, 105, 110, 103, 50, 48, 50, 52, 33]

/-- The XOR-decrypt loop of `decodeEvents`. -/
def decryptFrom (i : ℕ) : List ℕ → List ℕ
  | [] => []
  | b :: rest => (b ^^^ ENCRYPT_KEY.getD (i % ENCRYPT_KEY.length) 0) :: decryptFrom (i + 1) rest

/-- The event-parse loop of `decodeEvents` over the decrypted bytes, in steps
of three: `delta = (deltaHigh << 8) | deltaLow` (bytes are < 256 so no 32-bit
wrap), `currentTime += delta`, and the third byte is the event type.  When the
length is not a multiple of 3, the reads past the end yield `undefined`:
`(hi << 8) | undefined` contributes `hi * 256` (ToInt32 of `undefined` is 0)
and the stored event type is `undefined`, modelled as `none`. -/
def decodeEventsLoop : List ℕ → ℕ → List (ℕ × Option ℕ)
  | [], _ => []
  | [b0], t => [(t + b0 * 256, none)]
  | [b0, b1], t => [(t + (b0 * 256 ||| b1), none)]
  | b0 :: b1 :: b2 :: rest, t =>
      let delta := b0 * 256 ||| b1
      (t + delta, some b2) :: decodeEventsLoop rest (t + delta)

/-- `decodeEvents(encoded)` at the byte level (the base64 decode is the
transport wrapper outside this model): XOR decrypt, then parse events. -/
def decodeEvents (data : List ℕ) : List (ℕ × Option ℕ) :=
  decodeEventsLoop (decryptFrom 0 data) 0

/-- Server `generateChecksum(events, finalTime)`: the rolling hash folded over
every event's time and type, then the final time, then the event count.
Folding an `undefined` event type makes the sum `NaN` and `NaN | 0` is `0`.
As on the client, the hex string rendering is an injective formatting of the
returned unsigned 32-bit value. -/
def generateChecksum (events : List (ℕ × Option ℕ)) (finalTime : ℤ) : ℕ :=
  let h1 := events.foldl
    (fun h e =>
      let h' := hashStep h (e.1 : ℤ)
      match e.2 with
      | some ty => hashStep h' (ty : ℤ)
      | none => 0) 0
  toUint32 (hashStep (hashStep h1 (toInt32 finalTime)) (events.length : ℤ))

/-- The dense per-frame input state reconstructed by `getInputAtTime`. -/
structure InputState where
  forward : Bool
  backward : Bool
  left : Bool
  right : Bool
  handbrake : Bool
deriving DecidableEq

/-- The all-false initial input state. -/
def InputState.init : InputState := ⟨false, false, false, false, false⟩

/-- Application of one event to the input state: `isDown = eventType < 5`,
`keyIndex = isDown ? eventType : eventType - 5`, `keys[keyIndex]` — an index
past the `keys` array (or an `undefined` event type) leaves the state
unchanged. -/
def applyEvent (state : InputState) (eventType : Option ℕ) : InputState :=
  match eventType with
  | none => state
  | some ty =>
      if ty < 5 then
        match ty with
        | 0 => { state with forward := true }
        | 1 => { state with backward := true }
        | 2 => { state with left := true }
        | 3 => { state with right := true }
        | _ => { state with handbrake := true }
      else
        match ty - 5 with
        | 0 => { state with forward := false }
        | 1 => { state with backward := false }
        | 2 => { state with left := false }
        | 3 => { state with right := false }
        | 4 => { state with handbrake := false }
        | _ => state

/-- The event loop of `getInputAtTime`, with the early `break` at the first
event past the query time. -/
def getInputAtTimeLoop : List (ℕ × Option ℕ) → ℚ → InputState → InputState
  | [], _, state => state
  | e :: rest, time, state =>
      if (e.1 : ℚ) > time then state
      else getInputAtTimeLoop rest time (applyEvent state e.2)

/-- `getInputAtTime(events, time)`. -/
def getInputAtTime (events : List (ℕ × Option ℕ)) (time : ℚ) : InputState :=
  getInputAtTimeLoop events time InputState.init

/-- Reference semantics for `getInputAtTime` without the early exit: fold
every event whose time is `≤ time` over the state, in order.  (Stated from
the spec claim that the early exit never skips an applicable event.) -/
def getInputAtTimeFull (events : List (ℕ × Option ℕ)) (time : ℚ) : InputState :=
  events.foldl (fun st e => if (e.1 : ℚ) ≤ time then applyEvent st e.2 else st) InputState.init

end Server

namespace Server

/-- `PHYSICS.frameInterval * 1000` ms advanced per simulated frame (60 fps),
idealised as the exact rational `1000/60`. -/
def dtMs : ℚ := 1000 / 60

/-- The result record of `simulateRun`. -/
structure SimResult where
  valid : Bool
  errors : List String
  simulatedTime : ℚ
deriving DecidableEq

/-- The `for (time = 0; time < maxTime && !finished; time += dt*1000)` loop of
`simulateRun`.  The vehicle-physics body (acceleration, braking, steering,
handbrake, speed cap, friction) uses JS trigonometry on the rotation state and
is abstracted as a step function `step` on an abstract state `α`; the
distance-from-start used by finish detection is supplied as its square
`distSq` (for `r ≥ 0`, `sqrt d > r ↔ d > r²` and `sqrt d < r ↔ d < r²`, so
the squared thresholds `(15*2)² = 900` and `15² = 225` are equivalent to the
source's `TRACK.finishRadius` comparisons).  The loop itself — input lookup,
one physics step, position-based has-left-start latch, finish detection and
time advance — is concrete.  Each iteration advances `time` by `dtMs > 0`,
so the fuel chosen in `simOutcome` always reaches the loop guard before the
fallback. -/
def simLoopF {α : Type} (step : α → InputState → α) (distSq : α → ℚ)
    (events : List (ℕ × Option ℕ)) (maxTime : ℚ) :
    ℕ → ℚ → α → Bool → Bool × ℚ
  | 0, _, _, _ => (false, 0)
  | fuel + 1, time, s, hasLeft =>
      if time < maxTime then
        let input := getInputAtTime events time
        let s' := step s input
        let d := distSq s'
        let hasLeft' := if hasLeft = false ∧ d > (15 * 2 : ℚ) ^ 2 then true else hasLeft
        if hasLeft' = true ∧ d < (15 : ℚ) ^ 2 ∧ time > 5000 then (true, time)
        else simLoopF step distSq events maxTime fuel (time + dtMs) s' hasLeft'
      else (false, 0)

/-- The finish outcome `(finished, finishTime)` of the simulation loop of
`simulateRun(events, reportedTime)`, from the abstract start state `s0`
(`finished = false`, `finishTime = 0` when the loop exhausts the budget). -/
def simOutcome {α : Type} (step : α → InputState → α) (distSq : α → ℚ) (s0 : α)
    (events : List (ℕ × Option ℕ)) (reportedTime : ℚ) : Bool × ℚ :=
  simLoopF step distSq events (reportedTime + 5000)
    (⌈(reportedTime + 5000) / dtMs⌉₊ + 1) 0 s0 false

/-- `simulateRun(events, reportedTime)`: run the bounded loop
(`maxTime = reportedTime + 5000`), then the verdict: a did-not-finish error if
the loop never finished, a time-mismatch error if
`|finishTime - reportedTime| > reportedTime * 0.1`, valid iff no errors. -/
def simulateRun {α : Type} (step : α → InputState → α) (distSq : α → ℚ) (s0 : α)
    (events : List (ℕ × Option ℕ)) (reportedTime : ℚ) : SimResult :=
  let r := simOutcome step distSq s0 events reportedTime
  let errors1 : List String :=
    if r.1 = false then ["Simulation did not complete the track"] else []
  let timeTolerance := reportedTime * (1 / 10)
  let errors2 : List String :=
    if |r.2 - reportedTime| > timeTolerance
    then errors1 ++ ["Time mismatch: simulated vs reported"] else errors1
  { valid := errors2.isEmpty, errors := errors2, simulatedTime := r.2 }

theorem simLoopF_finish_lt {α : Type} (step : α → InputState → α) (distSq : α → ℚ)
    (events : List (ℕ × Option ℕ)) (maxTime : ℚ) :
    ∀ (fuel : ℕ) (time : ℚ) (s : α) (hasLeft : Bool),
      (simLoopF step distSq events maxTime fuel time s hasLeft).1 = true →
      (simLoopF step distSq events maxTime fuel time s hasLeft).2 < maxTime := by
  intro fuel
  induction fuel with
  | zero => intro time s hasLeft h; simp [simLoopF] at h
  | succ fuel ih =>
      intro time s hasLeft h
      rw [simLoopF] at h ⊢
      by_cases hg : time < maxTime
      · rw [if_pos hg] at h ⊢
        by_cases hfin : ((if hasLeft = false ∧ distSq (step s (getInputAtTime events time)) >
              (15 * 2 : ℚ) ^ 2 then true else hasLeft) = true ∧
            distSq (step s (getInputAtTime events time)) < (15 : ℚ) ^ 2 ∧ time > 5000)
        · simp only [if_pos hfin] at h ⊢
          exact hg
        · simp only [if_neg hfin] at h ⊢
          exact ih _ _ _ h
      · rw [if_neg hg] at h
        simp at h

end Server

/-- Claim C3: the server re-simulation verdict.  For every abstract physics
model, decoded event timeline and declared time `T`: the submission is
accepted exactly when the simulated vehicle reached the finish condition and
the simulated finish time deviates from `T` by at most 10% of `T`; and any
reached finish happened strictly within the bounded time budget `T + 5000` ms
(the loop only iterates at times below the budget).  In all other cases —
never finishing within the budget, or deviation above 10% — the verdict is
invalid. -/
theorem c3_simulateRun_verdict {α : Type} (step : α → Server.InputState → α)
    (distSq : α → ℚ) (s0 : α) (events : List (ℕ × Option ℕ)) (T : ℚ) :
    ((Server.simulateRun step distSq s0 events T).valid = true ↔
      ((Server.simOutcome step distSq s0 events T).1 = true ∧
        |(Server.simOutcome step distSq s0 events T).2 - T| ≤ T * (1 / 10))) ∧
    ((Server.simOutcome step distSq s0 events T).1 = true →
      (Server.simOutcome step distSq s0 events T).2 < T + 5000) ∧
    (Server.simulateRun step distSq s0 events T).simulatedTime
      = (Server.simOutcome step distSq s0 events T).2 := by
  refine ⟨?_, ?_, ?_⟩
  · by_cases h2 : T * 10⁻¹ < |(Server.simOutcome step distSq s0 events T).2 - T|
    · cases hb : (Server.simOutcome step distSq s0 events T).1
      · simp [Server.simulateRun, hb, h2]
      · simp [Server.simulateRun, hb, h2, not_le.mpr h2]
    · cases hb : (Server.simOutcome step distSq s0 events T).1
      · simp [Server.simulateRun, hb, h2]
      · simp [Server.simulateRun, hb, h2, not_lt.mp h2]
  · intro h
    exact Server.simLoopF_finish_lt step distSq events (T + 5000) _ 0 s0 false h
  · rfl

namespace Server

theorem decodeEventsLoop_sorted : ∀ (l : List ℕ) (t0 : ℕ),
    List.Chain' (fun a b => a.1 ≤ b.1) (decodeEventsLoop l t0) ∧
      ∀ e ∈ decodeEventsLoop l t0, t0 ≤ e.1
  | [], t0 => by simp [decodeEventsLoop]
  | [b0], t0 => by simp [decodeEventsLoop]
  | [b0, b1], t0 => by simp [decodeEventsLoop]
  | b0 :: b1 :: b2 :: rest, t0 => by
      have ih := decodeEventsLoop_sorted rest (t0 + (b0 * 256 ||| b1))
      simp only [decodeEventsLoop]
      constructor
      · refine List.chain'_cons'.mpr ⟨?_, ih.1⟩
        intro e he
        have hmem : e ∈ decodeEventsLoop rest (t0 + (b0 * 256 ||| b1)) :=
          List.mem_of_mem_head? he
        exact ih.2 e hmem
      · intro e he
        rcases List.mem_cons.mp he with he1 | he2
        · subst he1; omega
        · have := ih.2 e he2; omega

theorem getInputAtTimeLoop_skip (t : ℚ) : ∀ (events : List (ℕ × Option ℕ)) (state : InputState),
    (∀ e ∈ events, ¬ ((e.1 : ℚ) ≤ t)) →
    events.foldl (fun st e => if (e.1 : ℚ) ≤ t then applyEvent st e.2 else st) state = state := by
  intro events
  induction events with
  | nil => intro state h; rfl
  | cons e rest ih =>
      intro state h
      have he : ¬ ((e.1 : ℚ) ≤ t) := h e (List.mem_cons_self e rest)
      simp only [List.foldl_cons, if_neg he]
      exact ih state (fun x hx => h x (List.mem_cons_of_mem e hx))

theorem eventsChain_head_le : ∀ (e : ℕ × Option ℕ) (rest : List (ℕ × Option ℕ)),
    List.Chain' (fun a b => a.1 ≤ b.1) (e :: rest) → ∀ x ∈ rest, e.1 ≤ x.1 := by
  intro e rest
  induction rest generalizing e with
  | nil => intro _ x hx; simp at hx
  | cons r rest ih =>
      intro hchain x hx
      have h1 : e.1 ≤ r.1 := (List.chain'_cons.mp hchain).1
      rcases List.mem_cons.mp hx with hx1 | hx2
      · subst hx1; exact h1
      · exact le_trans h1 (ih r (List.chain'_cons.mp hchain).2 x hx2)

theorem getInputAtTimeLoop_eq_foldl (t : ℚ) : ∀ (events : List (ℕ × Option ℕ))
    (state : InputState), List.Chain' (fun a b => a.1 ≤ b.1) events →
    getInputAtTimeLoop events t state =
      events.foldl (fun st e => if (e.1 : ℚ) ≤ t then applyEvent st e.2 else st) state := by
  intro events
  induction events with
  | nil => intro state _; rfl
  | cons e rest ih =>
      intro state hchain
      rw [getInputAtTimeLoop, List.foldl_cons]
      by_cases he : (e.1 : ℚ) > t
      · rw [if_pos he, if_neg (not_le.mpr he)]
        refine (getInputAtTimeLoop_skip t rest state ?_).symm
        intro x hx
        have hle : e.1 ≤ x.1 := eventsChain_head_le e rest hchain x hx
        have : (e.1 : ℚ) ≤ (x.1 : ℚ) := by exact_mod_cast hle
        exact fun hc => absurd (le_trans this hc) (not_le.mpr he)
      · rw [if_neg he, if_pos (not_lt.mp he)]
        exact ih _ (List.Chain'.tail hchain)

end Server

/-- Claim C10: for every input byte string, the event list returned by the
server's `decodeEvents` has non-decreasing event times (each time is the
running sum of the nonnegative 16-bit deltas), so `getInputAtTime`'s early
loop exit at the first event past the query time computes exactly the same
input state as processing every event whose time is at most the query time —
no applicable earlier event is ever skipped. -/
theorem c10_decodeEvents_sorted_no_skip (data : List ℕ) (t : ℚ) :
    List.Chain' (fun a b => a.1 ≤ b.1) (Server.decodeEvents data) ∧
      Server.getInputAtTime (Server.decodeEvents data) t
        = Server.getInputAtTimeFull (Server.decodeEvents data) t := by
  have hs := Server.decodeEventsLoop_sorted (Server.decryptFrom 0 data) 0
  refine ⟨hs.1, ?_⟩
  exact Server.getInputAtTimeLoop_eq_foldl t _ _ hs.1

set_option maxRecDepth 100000 in
/-- Claim C2 (code bug): the server-side checksum recomputation does not
implement the same function as the client-side checksum.  The client
(`GhostRecorder.generateChecksum`, the checksum submitted by
`GhostManager.submitRun`) folds the rolling hash over every snapshot's
quantised x and z, while the server (`functions/index.js generateChecksum`,
commented "must match client") folds it over every decoded event's time and
action code.  For the concrete submission below — snapshots at 0 ms and 50 ms,
all positions zero, declared time 15000 ms, events decoded by the server from
the very blob the client encodes — the two 32-bit values differ, so the server
rejects the submission as a checksum mismatch. -/
theorem c2_checksum_mismatch :
    GhostRecorder.generateChecksum
        [⟨0, 0, 0, 0, 0, 0⟩, ⟨50, 0, 0, 0, 0, 0⟩] 15000 = 465002 ∧
      Server.generateChecksum
        (Server.decodeEvents
          (GhostRecorder.encode [⟨0, 0, 0, 0, 0, 0⟩, ⟨50, 0, 0, 0, 0, 0⟩])) 15000
        = 2525094378 ∧
      (465002 : ℕ) ≠ 2525094378 := by
  refine ⟨by with_unfolding_all decide, by with_unfolding_all decide, by decide⟩

/-- Claim C4 (amended): `decode` never throws to the caller: the `try/catch`
around the frame walk maps every internal throw (modelled by the parse
returning `none`, e.g. a run or delta frame with positive count before any
keyframe) to the empty sequence, and a successful parse is returned as-is.
Truncated inputs whose parse does not throw may however decode to a
NON-empty partially-reconstructed sequence, not the empty one (see the
counterexample). -/
theorem c4_decode_fails_softly (data : List ℕ) :
    (GhostRecorder.parseLoop (GhostRecorder.decrypt data) none = none →
        GhostRecorder.decode data = []) ∧
      (∀ out, GhostRecorder.parseLoop (GhostRecorder.decrypt data) none = some out →
        GhostRecorder.decode data = out) := by
  constructor
  · intro h
    unfold GhostRecorder.decode
    rw [h]
    rfl
  · intro out h
    unfold GhostRecorder.decode
    rw [h]
    rfl

/-- Claim C4 witness: the fails-softly theorem applied to the encrypted byte
stream `encrypt [2, 1]` — a run frame of count 1 before any keyframe, whose
decode dereferences the null `lastSnap` (a thrown `TypeError`) and is caught,
yielding the empty sequence. -/
theorem c4_decode_fails_softly_witness :
    GhostRecorder.parseLoop
        (GhostRecorder.decrypt (GhostRecorder.encrypt [2, 1])) none = none ∧
      GhostRecorder.decode (GhostRecorder.encrypt [2, 1]) = [] :=
  ⟨by with_unfolding_all decide,
    (c4_decode_fails_softly (GhostRecorder.encrypt [2, 1])).1 (by with_unfolding_all decide)⟩

set_option maxRecDepth 100000 in
/-- Claim C4 counterexample: the one-byte input `[66]` decrypts to `[0x01]`,
a keyframe marker with every following field truncated; decode does not
detect the truncation (out-of-bounds reads behave as zeros) and returns a
non-empty zero-filled sequence instead of the empty one. -/
theorem c4_counterexample :
    GhostRecorder.decode [66] = [⟨0, 0, 0, 0, 0, 0⟩] ∧
      GhostRecorder.decode [66] ≠ [] := by
  refine ⟨by with_unfolding_all decide, by with_unfolding_all decide⟩

set_option maxRecDepth 100000 in
/-- Claim C1 counterexample: five samples at the exact nominal 50 ms cadence
(times 0, 50, 100, 150, 200; x positions 0.004, 0.018, 0.032, 0.046, 0.060)
whose round-trip reproduces the count and every time exactly, but the decoder
rebuilds each sample from the previously *reconstructed* sample, so the
quantisation errors accumulate: the decoded x positions are 0, 0.01, 0.02,
0.03, 0.04 and the fifth is 0.02 away from the original 0.06 — more than the
claimed 1/100 bound. -/
theorem c1_counterexample :
    (GhostRecorder.decode (GhostRecorder.encode
        [⟨0, 4/1000, 0, 0, 0, 0⟩, ⟨50, 18/1000, 0, 0, 0, 0⟩, ⟨100, 32/1000, 0, 0, 0, 0⟩,
          ⟨150, 46/1000, 0, 0, 0, 0⟩, ⟨200, 60/1000, 0, 0, 0, 0⟩])).map GhostRecorder.Snapshot.x
      = [0, 1/100, 2/100, 3/100, 4/100] ∧
    (GhostRecorder.decode (GhostRecorder.encode
        [⟨0, 4/1000, 0, 0, 0, 0⟩, ⟨50, 18/1000, 0, 0, 0, 0⟩, ⟨100, 32/1000, 0, 0, 0, 0⟩,
          ⟨150, 46/1000, 0, 0, 0, 0⟩, ⟨200, 60/1000, 0, 0, 0, 0⟩])).map GhostRecorder.Snapshot.time
      = [0, 50, 100, 150, 200] ∧
    |(4 : ℚ)/100 - 60/1000| > 1/100 := by
  refine ⟨by with_unfolding_all decide, by with_unfolding_all decide,
    by with_unfolding_all decide⟩

namespace GhostRecorder

theorem timeOrderViolation_eq_false_iff : ∀ (lastTime : ℤ) (snapshots : List Snapshot),
    timeOrderViolation lastTime snapshots = false ↔
      ((∀ s0 ∈ snapshots.head?, lastTime ≤ s0.time) ∧
        List.Chain' (fun a b => a.time ≤ b.time) snapshots) := by
  intro lastTime snapshots
  induction snapshots generalizing lastTime with
  | nil => simp [timeOrderViolation]
  | cons s rest ih =>
      by_cases hs : s.time < lastTime
      · simp only [timeOrderViolation, if_pos hs]
        constructor
        · intro h; exact absurd h (by simp)
        · intro h
          have := h.1 s rfl
          omega
      · simp only [timeOrderViolation, if_neg hs]
        rw [ih s.time]
        constructor
        · intro h
          refine ⟨?_, List.chain'_cons'.mpr ⟨?_, h.2⟩⟩
          · intro s0 hs0
            simp only [List.head?_cons, Option.mem_def, Option.some.injEq] at hs0
            subst hs0
            omega
          · intro b hb
            exact h.1 b hb
        · intro h
          refine ⟨?_, (List.chain'_cons'.mp h.2).2⟩
          intro s0 hs0
          exact (List.chain'_cons'.mp h.2).1 s0 hs0

theorem speedViolation_eq_false_iff : ∀ (snapshots : List Snapshot),
    speedViolation snapshots = false ↔
      List.Chain' (fun s1 s2 =>
        ¬ (0 < ((s2.time - s1.time : ℤ) : ℚ) / 1000 ∧
          (s2.x - s1.x) ^ 2 + (s2.z - s1.z) ^ 2 >
            (50 * (((s2.time - s1.time : ℤ) : ℚ) / 1000)) ^ 2)) snapshots
  | [] => by simp [speedViolation]
  | [s] => by simp [speedViolation]
  | s1 :: s2 :: rest => by
      have ih := speedViolation_eq_false_iff (s2 :: rest)
      by_cases hv : 0 < ((s2.time - s1.time : ℤ) : ℚ) / 1000 ∧
          (s2.x - s1.x) ^ 2 + (s2.z - s1.z) ^ 2 >
            (50 * (((s2.time - s1.time : ℤ) : ℚ) / 1000)) ^ 2
      · simp only [speedViolation, if_pos hv]
        rw [List.chain'_cons]
        constructor
        · intro h; exact absurd h (by simp)
        · intro h; exact absurd hv h.1
      · simp only [speedViolation, if_neg hv]
        rw [List.chain'_cons, ih]
        tauto

end GhostRecorder

/-- Claim C5 (amended): the client validator returns invalid exactly when at
least one of these holds, and valid otherwise: fewer than 50 samples; declared
finish time below 10000 ms; the first sample's time negative or some two
consecutive samples time-inverted (the `lastTime` reference starts at 0); or
some two consecutive samples with positive time difference implying an
instantaneous speed above 50 units/second (`dist/dt > 50` with
`dist = sqrt(dx²+dz²)`, stated equivalently without the square root as
`dx²+dz² > (50·dt)²`; pairs with `dt ≤ 0` are skipped by the code's guard). -/
theorem c5_validateClient_iff (snapshots : List GhostRecorder.Snapshot) (finalTime : ℤ) :
    (GhostRecorder.validateClient snapshots finalTime).valid = true ↔
      (¬ snapshots.length < 50 ∧ ¬ finalTime < 10000 ∧
        (∀ s0 ∈ snapshots.head?, 0 ≤ s0.time) ∧
        List.Chain' (fun a b => a.time ≤ b.time) snapshots ∧
        List.Chain' (fun s1 s2 =>
          ¬ (0 < ((s2.time - s1.time : ℤ) : ℚ) / 1000 ∧
            (s2.x - s1.x) ^ 2 + (s2.z - s1.z) ^ 2 >
              (50 * (((s2.time - s1.time : ℤ) : ℚ) / 1000)) ^ 2)) snapshots) := by
  unfold GhostRecorder.validateClient
  by_cases h1 : snapshots.length < 50
  · simp [h1]
  · rw [if_neg h1]
    by_cases h2 : finalTime < 10000
    · simp [h1, h2]
    · rw [if_neg h2]
      by_cases h3 : GhostRecorder.timeOrderViolation 0 snapshots = true
      · rw [if_pos h3]
        have hne : ¬ (GhostRecorder.timeOrderViolation 0 snapshots = false) := by
          simp [h3]
        rw [GhostRecorder.timeOrderViolation_eq_false_iff] at hne
        simp only [not_and_or] at hne
        simp only [h1, h2, not_false_iff, true_and]
        constructor
        · intro h; exact absurd h (by simp)
        · intro h
          rcases hne with hne | hne
          · exact absurd h.1 hne
          · exact absurd h.2.1 hne
      · have h3f : GhostRecorder.timeOrderViolation 0 snapshots = false := by
          cases hb : GhostRecorder.timeOrderViolation 0 snapshots
          · rfl
          · exact absurd hb h3
        rw [if_neg h3]
        have h3iff := (GhostRecorder.timeOrderViolation_eq_false_iff 0 snapshots).mp h3f
        by_cases h4 : GhostRecorder.speedViolation snapshots = true
        · rw [if_pos h4]
          have hne : ¬ (GhostRecorder.speedViolation snapshots = false) := by simp [h4]
          rw [GhostRecorder.speedViolation_eq_false_iff] at hne
          simp only [h1, h2, not_false_iff, true_and]
          constructor
          · intro h; exact absurd h (by simp)
          · intro h; exact absurd h.2.2 hne
        · have h4f : GhostRecorder.speedViolation snapshots = false := by
            cases hb : GhostRecorder.speedViolation snapshots
            · rfl
            · exact absurd hb h4
          rw [if_neg h4]
          have h4iff := (GhostRecorder.speedViolation_eq_false_iff snapshots).mp h4f
          simp only [h1, h2, not_false_iff, true_and]
          constructor
          · intro _; exact ⟨h3iff.1, h3iff.2, h4iff⟩
          · intro _; trivial

set_option maxRecDepth 100000 in
/-- Claim C5 counterexample: fifty samples at times -50, 0, 50, …, 2400 ms
(all positions zero) with declared time 12000 ms satisfy every condition of
the claim for a valid run — at least 50 samples, time at least 10000 ms, no
two consecutive samples time-inverted, no implied speed above 50 — yet the
validator rejects with "Snapshots out of order", because its `lastTime`
reference starts at 0 and the first sample's time is negative. -/
theorem c5_counterexample :
    (GhostRecorder.validateClient
        ((List.range 50).map (fun (i : ℕ) => (⟨-50 + 50 * (i : ℤ), 0, 0, 0, 0, 0⟩ :
          GhostRecorder.Snapshot))) 12000).valid = false ∧
      ¬ ((List.range 50).map (fun (i : ℕ) => (⟨-50 + 50 * (i : ℤ), 0, 0, 0, 0, 0⟩ :
          GhostRecorder.Snapshot))).length < 50 ∧
      ¬ (12000 : ℤ) < 10000 ∧
      List.Chain' (fun a b => a.time ≤ b.time)
        ((List.range 50).map (fun (i : ℕ) => (⟨-50 + 50 * (i : ℤ), 0, 0, 0, 0, 0⟩ :
          GhostRecorder.Snapshot))) ∧
      List.Chain' (fun s1 s2 =>
          ¬ (0 < ((s2.time - s1.time : ℤ) : ℚ) / 1000 ∧
            (s2.x - s1.x) ^ 2 + (s2.z - s1.z) ^ 2 >
              (50 * (((s2.time - s1.time : ℤ) : ℚ) / 1000)) ^ 2))
        ((List.range 50).map (fun (i : ℕ) => (⟨-50 + 50 * (i : ℤ), 0, 0, 0, 0, 0⟩ :
          GhostRecorder.Snapshot))) := by
  have h50 : (50 : ℕ) = 49 + 1 := rfl
  refine ⟨by with_unfolding_all decide, by decide, by decide, ?_, ?_⟩
  · rw [List.chain'_map, h50, List.chain'_range_succ]
    intro m hm
    simp only []
    push_cast
    omega
  · rw [List.chain'_map, h50, List.chain'_range_succ]
    intro m hm
    rintro ⟨hdt, hsq⟩
    simp only [sub_self] at hsq
    nlinarith [sq_nonneg (50 * (((((-50 + 50 * ((m + 1 : ℕ) : ℤ)) - (-50 + 50 * (m : ℤ)) : ℤ)) : ℚ) / 1000))]

namespace GhostRecorder

theorem chain'_time_lt (l : List Snapshot)
    (h : List.Chain' (fun a b => a.time < b.time) l) :
    ∀ j i, i < j → j < l.length →
      (l.getD i ⟨0, 0, 0, 0, 0, 0⟩).time < (l.getD j ⟨0, 0, 0, 0, 0, 0⟩).time := by
  intro j
  induction j with
  | zero => intro i hi _; omega
  | succ j ihj =>
      intro i hi hj
      have hstep : (l.getD j ⟨0, 0, 0, 0, 0, 0⟩).time < (l.getD (j + 1) ⟨0, 0, 0, 0, 0, 0⟩).time := by
        have hj1 : j < l.length - 1 := by omega
        have hc := List.chain'_iff_get.mp h j hj1
        rw [List.getD_eq_getElem l _ (by omega), List.getD_eq_getElem l _ (by omega)]
        simpa [List.get_eq_getElem] using hc
      rcases Nat.lt_or_ge i j with h2 | h2
      · exact lt_trans (ihj i h2 (by omega)) hstep
      · have hij : i = j := by omega
        subst hij
        exact hstep

theorem bsearchF_correct (snapshots : List Snapshot) (t : ℚ) :
    ∀ (fuel low high : ℕ), low < high → high < snapshots.length →
      ((snapshots.getD low ⟨0, 0, 0, 0, 0, 0⟩).time : ℚ) ≤ t →
      t < ((snapshots.getD high ⟨0, 0, 0, 0, 0, 0⟩).time : ℚ) →
      high - low ≤ fuel →
      (bsearchF snapshots t fuel low high).2 = (bsearchF snapshots t fuel low high).1 + 1 ∧
      low ≤ (bsearchF snapshots t fuel low high).1 ∧
      (bsearchF snapshots t fuel low high).2 ≤ high ∧
      ((snapshots.getD (bsearchF snapshots t fuel low high).1 ⟨0, 0, 0, 0, 0, 0⟩).time : ℚ) ≤ t ∧
      t < ((snapshots.getD (bsearchF snapshots t fuel low high).2 ⟨0, 0, 0, 0, 0, 0⟩).time : ℚ) := by
  intro fuel
  induction fuel with
  | zero => intro low high h1 _ _ _ h5; omega
  | succ fuel ih =>
      intro low high h1 h2 h3 h4 h5
      by_cases hlh : low < high - 1
      · have hmid1 : low < (low + high) / 2 := by omega
        have hmid2 : (low + high) / 2 < high := by omega
        simp only [bsearchF, if_pos hlh]
        by_cases hc : ((snapshots.getD ((low + high) / 2) ⟨0, 0, 0, 0, 0, 0⟩).time : ℚ) ≤ t
        · rw [if_pos hc]
          have hr := ih ((low + high) / 2) high hmid2 h2 hc h4 (by omega)
          exact ⟨hr.1, le_trans (le_of_lt hmid1) hr.2.1, hr.2.2.1, hr.2.2.2.1, hr.2.2.2.2⟩
        · rw [if_neg hc]
          have hc2 : t < ((snapshots.getD ((low + high) / 2) ⟨0, 0, 0, 0, 0, 0⟩).time : ℚ) :=
            lt_of_not_ge hc
          have hr := ih low ((low + high) / 2) hmid1 (by omega) h3 hc2 (by omega)
          exact ⟨hr.1, hr.2.1, le_trans hr.2.2.1 (le_of_lt hmid2), hr.2.2.2.1, hr.2.2.2.2⟩
      · simp only [bsearchF, if_neg hlh]
        refine ⟨by omega, le_refl _, le_refl _, h3, h4⟩

theorem lerpAngle_zero (a b : ℚ) : lerpAngle a b 0 = a := by
  simp [lerpAngle]

end GhostRecorder

/-- Claim C6 (amended): for every non-empty sample sequence with strictly
increasing times, `getStateAtTime(samples, t)` (1) returns the first sample's
state verbatim when `t` is at or before the first sample's time; (2) returns
the no-state sentinel when `t` is strictly after the first sample's time and
at or after the last sample's time (for a single-sample sequence with `t`
equal to its time, the first-sample branch is checked first and wins — see
the counterexample); and (3) when `t` equals an interior sample's time,
returns that sample's position and heading values (the bracketing pair is
`(k, k+1)` with interpolation fraction 0). -/
theorem c6_getStateAtTime_boundaries (snapshots : List GhostRecorder.Snapshot) (t : ℚ)
    (hne : snapshots ≠ [])
    (hsort : List.Chain' (fun a b => a.time < b.time) snapshots) :
    (t ≤ ((snapshots.headD ⟨0, 0, 0, 0, 0, 0⟩).time : ℚ) →
      GhostRecorder.getStateAtTime snapshots t
        = some (.fromSnapshot (snapshots.headD ⟨0, 0, 0, 0, 0, 0⟩))) ∧
    (((snapshots.headD ⟨0, 0, 0, 0, 0, 0⟩).time : ℚ) < t →
      ((snapshots.getD (snapshots.length - 1) ⟨0, 0, 0, 0, 0, 0⟩).time : ℚ) ≤ t →
      GhostRecorder.getStateAtTime snapshots t = none) ∧
    (∀ k, 0 < k → k + 1 < snapshots.length →
      t = ((snapshots.getD k ⟨0, 0, 0, 0, 0, 0⟩).time : ℚ) →
      GhostRecorder.getStateAtTime snapshots t
        = some (.interp t (snapshots.getD k ⟨0, 0, 0, 0, 0, 0⟩).x
            (snapshots.getD k ⟨0, 0, 0, 0, 0, 0⟩).z
            (snapshots.getD k ⟨0, 0, 0, 0, 0, 0⟩).rotY
            ((snapshots.getD k ⟨0, 0, 0, 0, 0, 0⟩).vx ^ 2
              + (snapshots.getD k ⟨0, 0, 0, 0, 0, 0⟩).vz ^ 2))) := by
  cases snapshots with
  | nil => exact absurd rfl hne
  | cons s0 rest =>
  have hlen1 : (s0 :: rest : List GhostRecorder.Snapshot).length = rest.length + 1 := by simp
  have hd0 : (s0 :: rest : List GhostRecorder.Snapshot).getD 0 ⟨0, 0, 0, 0, 0, 0⟩ = s0 := rfl
  refine ⟨?_, ?_, ?_⟩
  · intro h
    simp only [List.headD_cons] at h ⊢
    simp only [GhostRecorder.getStateAtTime, if_pos h]
  · intro h1 h2
    simp only [List.headD_cons] at h1
    have hlen : (s0 :: rest : List GhostRecorder.Snapshot).length - 1
        < (s0 :: rest : List GhostRecorder.Snapshot).length := by omega
    have h2' : (((s0 :: rest).getD ((s0 :: rest).length - 1) s0).time : ℚ) ≤ t := by
      rwa [List.getD_eq_getElem (s0 :: rest) _ hlen,
        ← List.getD_eq_getElem (s0 :: rest) ⟨0, 0, 0, 0, 0, 0⟩ hlen]
    simp only [GhostRecorder.getStateAtTime]
    rw [if_neg (not_le.mpr h1), if_pos h2']
  · intro k hk0 hk1 ht
    have hkl : k < (s0 :: rest : List GhostRecorder.Snapshot).length := by omega
    have h0k : ((s0 :: rest).getD 0 ⟨0, 0, 0, 0, 0, 0⟩).time
        < ((s0 :: rest).getD k ⟨0, 0, 0, 0, 0, 0⟩).time :=
      GhostRecorder.chain'_time_lt (s0 :: rest) hsort k 0 hk0 hkl
    have hklast : ((s0 :: rest).getD k ⟨0, 0, 0, 0, 0, 0⟩).time
        < ((s0 :: rest).getD ((s0 :: rest).length - 1) ⟨0, 0, 0, 0, 0, 0⟩).time :=
      GhostRecorder.chain'_time_lt (s0 :: rest) hsort ((s0 :: rest).length - 1) k
        (by omega) (by omega)
    have h1 : ((s0.time : ℚ)) < t := by
      rw [ht]
      rw [hd0] at h0k
      exact_mod_cast h0k
    have h2 : t < (((s0 :: rest).getD ((s0 :: rest).length - 1) ⟨0, 0, 0, 0, 0, 0⟩).time : ℚ) := by
      rw [ht]
      exact_mod_cast hklast
    have h2' : ¬ (((s0 :: rest).getD ((s0 :: rest).length - 1) s0).time : ℚ) ≤ t := by
      rw [List.getD_eq_getElem (s0 :: rest) _ (by omega :
          (s0 :: rest : List GhostRecorder.Snapshot).length - 1
            < (s0 :: rest : List GhostRecorder.Snapshot).length),
        ← List.getD_eq_getElem (s0 :: rest) ⟨0, 0, 0, 0, 0, 0⟩ (by omega :
          (s0 :: rest : List GhostRecorder.Snapshot).length - 1
            < (s0 :: rest : List GhostRecorder.Snapshot).length)]
      exact not_le.mpr h2
    have hbs := GhostRecorder.bsearchF_correct (s0 :: rest) t (s0 :: rest).length 0
      ((s0 :: rest).length - 1) (by omega) (by omega) (by rw [hd0]; exact le_of_lt h1) h2
      (by omega)
    set r := GhostRecorder.bsearchF (s0 :: rest) t (s0 :: rest).length 0
      ((s0 :: rest).length - 1) with hr
    obtain ⟨hr21, hr1lb, hr2ub, hrle, hrlt⟩ := hbs
    have hr1k : r.1 = k := by
      rcases lt_trichotomy r.1 k with hlt | heq | hgt
      · exfalso
        have hle2 : ((s0 :: rest).getD r.2 ⟨0, 0, 0, 0, 0, 0⟩).time
            ≤ ((s0 :: rest).getD k ⟨0, 0, 0, 0, 0, 0⟩).time := by
          rcases eq_or_lt_of_le (show r.2 ≤ k by omega) with he | hlt2
          · rw [he]
          · exact le_of_lt (GhostRecorder.chain'_time_lt (s0 :: rest) hsort k r.2 hlt2 hkl)
        have hcon : t < (((s0 :: rest).getD k ⟨0, 0, 0, 0, 0, 0⟩).time : ℚ) :=
          lt_of_lt_of_le hrlt (by exact_mod_cast hle2)
        rw [ht] at hcon
        exact lt_irrefl _ hcon
      · exact heq
      · exfalso
        have hstrict : ((s0 :: rest).getD k ⟨0, 0, 0, 0, 0, 0⟩).time
            < ((s0 :: rest).getD r.1 ⟨0, 0, 0, 0, 0, 0⟩).time :=
          GhostRecorder.chain'_time_lt (s0 :: rest) hsort r.1 k hgt (by omega)
        have hcon : (((s0 :: rest).getD r.1 ⟨0, 0, 0, 0, 0, 0⟩).time : ℚ) ≤ t := hrle
        rw [ht] at hcon
        have hcon2 : (((s0 :: rest).getD k ⟨0, 0, 0, 0, 0, 0⟩).time : ℚ)
            < (((s0 :: rest).getD k ⟨0, 0, 0, 0, 0, 0⟩).time : ℚ) :=
          lt_of_lt_of_le (by exact_mod_cast hstrict) hcon
        exact lt_irrefl _ hcon2
    have hprev : (s0 :: rest).getD r.1 s0 = (s0 :: rest).getD k ⟨0, 0, 0, 0, 0, 0⟩ := by
      rw [hr1k, List.getD_eq_getElem (s0 :: rest) _ hkl,
        ← List.getD_eq_getElem (s0 :: rest) ⟨0, 0, 0, 0, 0, 0⟩ hkl]
    simp only [GhostRecorder.getStateAtTime]
    rw [if_neg (not_le.mpr h1), if_neg h2']
    simp only [← hr, hprev]
    have hfrac : (t - (((s0 :: rest).getD k ⟨0, 0, 0, 0, 0, 0⟩).time : ℚ))
        / ((((s0 :: rest).getD r.2 s0).time : ℚ)
            - (((s0 :: rest).getD k ⟨0, 0, 0, 0, 0, 0⟩).time : ℚ)) = 0 := by
      rw [ht]
      simp
    rw [hfrac]
    rw [GhostRecorder.lerpAngle_zero]
    norm_num

/-- Claim C6 witness: the boundary theorem applied to a three-sample sequence
at an interior sample's exact time: the interpolated state carries that
sample's position and heading (fraction 0). -/
theorem c6_getStateAtTime_boundaries_witness :
    (([⟨0, 0, 0, 0, 0, 0⟩, ⟨50, 1, 2, 3, 4, 5⟩, ⟨100, 0, 0, 0, 0, 0⟩] :
        List GhostRecorder.Snapshot) ≠ []) ∧
      List.Chain' (fun a b => a.time < b.time)
        ([⟨0, 0, 0, 0, 0, 0⟩, ⟨50, 1, 2, 3, 4, 5⟩, ⟨100, 0, 0, 0, 0, 0⟩] :
          List GhostRecorder.Snapshot) ∧
      GhostRecorder.getStateAtTime
          ([⟨0, 0, 0, 0, 0, 0⟩, ⟨50, 1, 2, 3, 4, 5⟩, ⟨100, 0, 0, 0, 0, 0⟩] :
            List GhostRecorder.Snapshot) 50
        = some (.interp 50 1 2 3 (4 ^ 2 + 5 ^ 2)) := by
  have hne : (([⟨0, 0, 0, 0, 0, 0⟩, ⟨50, 1, 2, 3, 4, 5⟩, ⟨100, 0, 0, 0, 0, 0⟩] :
      List GhostRecorder.Snapshot) ≠ []) := by simp
  have hsort : List.Chain' (fun a b => a.time < b.time)
      ([⟨0, 0, 0, 0, 0, 0⟩, ⟨50, 1, 2, 3, 4, 5⟩, ⟨100, 0, 0, 0, 0, 0⟩] :
        List GhostRecorder.Snapshot) := by
    norm_num [List.chain'_cons, List.chain'_singleton]
  refine ⟨hne, hsort, ?_⟩
  have h := (c6_getStateAtTime_boundaries _ 50 hne hsort).2.2 1 (by norm_num) (by norm_num)
    (by norm_num)
  simpa using h

/-- Claim C6 counterexample: for the single-sample sequence `[{time 0, …}]`
(vacuously strictly increasing) and query time `t = 0`, the claim requires
the no-state sentinel (`t` is at or after the last sample's time), but the
code checks the first-sample branch first and returns the sample. -/
theorem c6_counterexample :
    (([⟨0, 0, 0, 0, 0, 0⟩] : List GhostRecorder.Snapshot) ≠ []) ∧
      List.Chain' (fun a b => a.time < b.time)
        ([⟨0, 0, 0, 0, 0, 0⟩] : List GhostRecorder.Snapshot) ∧
      ((((⟨0, 0, 0, 0, 0, 0⟩ : GhostRecorder.Snapshot).time : ℚ)) ≤ (0 : ℚ)) ∧
      GhostRecorder.getStateAtTime ([⟨0, 0, 0, 0, 0, 0⟩] : List GhostRecorder.Snapshot) 0
        = some (.fromSnapshot ⟨0, 0, 0, 0, 0, 0⟩) ∧
      GhostRecorder.getStateAtTime ([⟨0, 0, 0, 0, 0, 0⟩] : List GhostRecorder.Snapshot) 0
        ≠ none := by
  refine ⟨by simp, by simp, by norm_num, by with_unfolding_all decide,
    by with_unfolding_all decide⟩

/-- Claim C8 (amended): for all headings `a`, `b` whose raw difference `b - a`
lies within `[-3π, 3π]` (π being the exact value of the double `Math.PI`),
`lerpAngle a b t` interpolates along a difference wrapped into `[-π, π]` that
is congruent to `b - a` modulo `2π` — the shortest angular path (at the
boundary `-π` the tie is kept at `-π`).  In particular, interpolating from
3.0 rad to -3.0 rad follows the positive difference `2π - 6 ≈ 0.283` across
the ±π seam (see the witness).  A single conditional ±2π adjustment cannot
wrap differences outside `[-3π, 3π]` (see the counterexample). -/
theorem c8_lerpAngle_wraps (a b t : ℚ) (h1 : -(3 * jsPI) ≤ b - a) (h2 : b - a ≤ 3 * jsPI) :
    ∃ d : ℚ, GhostRecorder.lerpAngle a b t = a + d * t ∧ -jsPI ≤ d ∧ d ≤ jsPI ∧
      (d = b - a ∨ d = b - a - 2 * jsPI ∨ d = b - a + 2 * jsPI) := by
  have hpi : (0 : ℚ) < jsPI := by norm_num [jsPI]
  simp only [GhostRecorder.lerpAngle]
  by_cases hgt : b - a > jsPI
  · rw [if_pos hgt]
    exact ⟨b - a - jsPI * 2, rfl, by linarith, by linarith, Or.inr (Or.inl (by ring))⟩
  · rw [if_neg hgt]
    by_cases hlt : b - a < -jsPI
    · rw [if_pos hlt]
      exact ⟨b - a + jsPI * 2, rfl, by linarith, by linarith, Or.inr (Or.inr (by ring))⟩
    · rw [if_neg hlt]
      exact ⟨b - a, rfl, by linarith, by linarith, Or.inl rfl⟩

/-- Claim C8 witness: the wrap theorem applied to headings 3.0 and -3.0: the
interpolation difference is `(-3 - 3) + 2π = 2π - 6 > 0`, i.e. the path
crosses the ±π seam instead of going the long way through 0. -/
theorem c8_lerpAngle_wraps_witness :
    (-(3 * jsPI) ≤ (-3 : ℚ) - 3) ∧ ((-3 : ℚ) - 3 ≤ 3 * jsPI) ∧
      (∃ d : ℚ, GhostRecorder.lerpAngle 3 (-3) (1/2) = 3 + d * (1/2) ∧ -jsPI ≤ d ∧ d ≤ jsPI ∧
        (d = (-3 : ℚ) - 3 ∨ d = (-3 : ℚ) - 3 - 2 * jsPI ∨ d = (-3 : ℚ) - 3 + 2 * jsPI)) ∧
      (0 : ℚ) < (-3 : ℚ) - 3 + 2 * jsPI :=
  ⟨by norm_num [jsPI], by norm_num [jsPI],
    c8_lerpAngle_wraps 3 (-3) (1/2) (by norm_num [jsPI]) (by norm_num [jsPI]),
    by norm_num [jsPI]⟩

/-- Claim C8 counterexample: for headings 0 and 10 the raw difference 10
exceeds `3π`, and the single ±2π adjustment leaves an effective interpolation
difference of `10 - 2π ≈ 3.72`, which is still greater than `π` — not wrapped
into the `(-π, π]` range the claim asserts for all headings. -/
theorem c8_counterexample :
    GhostRecorder.lerpAngle 0 10 1 = 0 + (10 - jsPI * 2) * 1 ∧ jsPI < 10 - jsPI * 2 := by
  constructor
  · simp only [GhostRecorder.lerpAngle]
    rw [if_pos (by norm_num [jsPI] : (10 : ℚ) - 0 > jsPI)]
    norm_num
  · norm_num [jsPI]

namespace GhostRecorder

/-- The times a run or delta-batch frame of `c` samples contributes when
expanded from a sample at time `t`: `t + 50, t + 100, …, t + 50·c`. -/
def rangeTimes (c : ℕ) (t : ℤ) : List ℤ :=
  (List.range c).map (fun (i : ℕ) => t + 50 * ((i : ℤ) + 1))

/-- The sample times a frame list decodes to, starting from a previous sample
at time `t` (keyframes reset the clock to their own time; run and delta
frames advance it by the nominal 50 ms per sample). -/
def frameTimes : List Frame → ℤ → List ℤ
  | [], _ => []
  | .key s :: rest, _ => s.time :: frameTimes rest s.time
  | .run c :: rest, t => rangeTimes c t ++ frameTimes rest (t + 50 * c)
  | .deltas ds :: rest, t => rangeTimes ds.length t ++ frameTimes rest (t + 50 * ds.length)

/-- The time of the last sample after decoding a frame list from time `t`. -/
def endTime : List Frame → ℤ → ℤ
  | [], t => t
  | .key s :: rest, _ => endTime rest s.time
  | .run c :: rest, t => endTime rest (t + 50 * c)
  | .deltas ds :: rest, t => endTime rest (t + 50 * ds.length)

/-- Well-formedness of an emitted frame: the values whose varints must read
back exactly (keyframe time, run count, batch length) are in `[0, 2^31)`,
and counts are positive (the encoder only flushes non-empty runs/batches). -/
def wfFrame : Frame → Prop
  | .key s => 0 ≤ s.time ∧ s.time < 2 ^ 31
  | .run c => 1 ≤ c ∧ c < 2 ^ 31
  | .deltas ds => 1 ≤ ds.length ∧ ds.length < 2 ^ 31

/-- The frames a final flush would emit for the pending encoder state. -/
def flushPending (st : EncState) : List Frame :=
  (if st.runLength > 0 then [Frame.run st.runLength] else []) ++
    (if st.pending ≠ [] then [Frame.deltas st.pending] else [])

theorem flushFrames_eq (st : EncState) : flushFrames st = st.frames ++ flushPending st := by
  unfold flushFrames flushPending
  by_cases h1 : st.runLength > 0 <;> by_cases h2 : st.pending ≠ [] <;>
    simp [h1, h2, List.append_assoc]

theorem rangeTimes_succ (c : ℕ) (t : ℤ) :
    rangeTimes (c + 1) t = rangeTimes c t ++ [t + 50 * ((c : ℤ) + 1)] := by
  unfold rangeTimes
  rw [List.range_succ, List.map_append]
  rfl

theorem frameTimes_append (F G : List Frame) :
    ∀ t, frameTimes (F ++ G) t = frameTimes F t ++ frameTimes G (endTime F t) := by
  induction F with
  | nil => intro t; rfl
  | cons f rest ih =>
      intro t
      cases f with
      | key s => simp [frameTimes, endTime, ih]
      | run c => simp [frameTimes, endTime, ih, List.append_assoc]
      | deltas ds => simp [frameTimes, endTime, ih, List.append_assoc]

theorem endTime_append (F G : List Frame) :
    ∀ t, endTime (F ++ G) t = endTime G (endTime F t) := by
  induction F with
  | nil => intro t; rfl
  | cons f rest ih =>
      intro t
      cases f with
      | key s => simp [endTime, ih]
      | run c => simp [endTime, ih]
      | deltas ds => simp [endTime, ih]

end GhostRecorder

namespace GhostRecorder

theorem readVarInt_write_int (v : ℤ) (h0 : 0 ≤ v) (h1 : v < 2 ^ 31) (rest : List ℕ) :
    readVarInt (writeVarInt v ++ rest) = (v, rest) := by
  unfold writeVarInt readVarInt
  have hna : v.natAbs ≤ 2 ^ 31 := by omega
  rw [readVarIntU_write hna rest]
  simp only [Prod.mk.injEq]
  refine ⟨?_, trivial⟩
  unfold asInt32
  rw [if_pos (by omega : v.natAbs < 2 ^ 31)]
  omega

theorem readSignedVarInt_write_rest (v : ℤ) (rest : List ℕ) :
    (readSignedVarInt (writeSignedVarInt v ++ rest)).2 = rest := by
  simp only [writeSignedVarInt, writeVarInt, readSignedVarInt, readVarIntU]
  exact readVarIntLoop_write_rest _ rest 0 0

theorem rangeTimes_cons (c : ℕ) (t : ℤ) :
    rangeTimes (c + 1) t = (t + 50) :: rangeTimes c (t + 50) := by
  unfold rangeTimes
  rw [List.range_succ_eq_map]
  simp only [List.map_cons, List.map_map, Nat.cast_zero]
  refine congrArg₂ List.cons (by norm_num) ?_
  congr 1
  funext i
  simp only [Function.comp]
  push_cast
  ring

theorem expandRun_times (c : ℕ) : ∀ last : Snapshot,
    (expandRun last c).map Snapshot.time = rangeTimes c last.time ∧
      ((expandRun last c).getLastD last).time = last.time + 50 * c := by
  induction c with
  | zero =>
      intro last
      refine ⟨rfl, by simp [expandRun]⟩
  | succ c ih =>
      intro last
      simp only [expandRun, List.map_cons, List.getLastD_cons]
      set s : Snapshot :=
        { time := last.time + SNAPSHOT_INTERVAL,
          x := last.x + last.vx * ((SNAPSHOT_INTERVAL : ℚ) / 1000),
          z := last.z + last.vz * ((SNAPSHOT_INTERVAL : ℚ) / 1000),
          rotY := last.rotY, vx := last.vx, vz := last.vz } with hs
      have hstime : s.time = last.time + 50 := rfl
      have ihs := ih s
      constructor
      · rw [ihs.1, rangeTimes_cons, hstime]
        rfl
      · rw [ihs.2, hstime]
        push_cast
        ring

theorem readKeySnapshot_serialized (s : Snapshot) (tail : List ℕ)
    (h0 : 0 ≤ s.time) (h1 : s.time < 2 ^ 31) :
    (readKeySnapshot (writeVarInt s.time ++
        (writeSignedVarInt (jround (s.x * POSITION_PRECISION)) ++
          (writeSignedVarInt (jround (s.z * POSITION_PRECISION)) ++
            (writeSignedVarInt (jround (s.rotY * ROTATION_PRECISION)) ++
              (writeSignedVarInt (jround (s.vx * POSITION_PRECISION)) ++
                (writeSignedVarInt (jround (s.vz * POSITION_PRECISION)) ++ tail))))))).1.time
        = s.time ∧
      (readKeySnapshot (writeVarInt s.time ++
        (writeSignedVarInt (jround (s.x * POSITION_PRECISION)) ++
          (writeSignedVarInt (jround (s.z * POSITION_PRECISION)) ++
            (writeSignedVarInt (jround (s.rotY * ROTATION_PRECISION)) ++
              (writeSignedVarInt (jround (s.vx * POSITION_PRECISION)) ++
                (writeSignedVarInt (jround (s.vz * POSITION_PRECISION)) ++ tail))))))).2
        = tail := by
  simp only [readKeySnapshot, readVarInt_write_int s.time h0 h1, readSignedVarInt_write_rest]
  exact ⟨trivial, trivial⟩

theorem readDeltas_serialized (ds : List (ℤ × ℤ × ℤ × ℤ × ℤ)) :
    ∀ (last : Snapshot) (tail : List ℕ),
      (readDeltas last ds.length (serializeResiduals ds ++ tail)).1.map Snapshot.time
          = rangeTimes ds.length last.time ∧
        (readDeltas last ds.length (serializeResiduals ds ++ tail)).2.1.time
          = last.time + 50 * ds.length ∧
        (readDeltas last ds.length (serializeResiduals ds ++ tail)).2.2 = tail := by
  induction ds with
  | nil =>
      intro last tail
      refine ⟨rfl, by simp [readDeltas], rfl⟩
  | cons d ds ih =>
      intro last tail
      simp only [serializeResiduals, List.length_cons, List.append_assoc]
      simp only [readDeltas, readSignedVarInt_write_rest, List.map_cons]
      refine ⟨?_, ?_, ?_⟩
      · rw [(ih _ tail).1, rangeTimes_cons]
        rfl
      · rw [(ih _ tail).2.1]
        simp only [SNAPSHOT_INTERVAL]
        push_cast
        ring
      · rw [(ih _ tail).2.2]

theorem parse_serialize : ∀ (F : List Frame) (last : Snapshot), (∀ f ∈ F, wfFrame f) →
    ∃ out, parseLoop (serializeFrames F) (some last) = some out ∧
      out.map Snapshot.time = frameTimes F last.time := by
  intro F
  induction F with
  | nil => intro last _; exact ⟨[], rfl, rfl⟩
  | cons f rest ih =>
      intro last hwf
      have hwf_f : wfFrame f := hwf f (List.mem_cons_self f rest)
      have hwf_rest : ∀ g ∈ rest, wfFrame g := fun g hg => hwf g (List.mem_cons_of_mem f hg)
      cases f with
      | key s =>
          obtain ⟨h0, h1⟩ := hwf_f
          simp only [serializeFrames, serializeFrame, List.cons_append, List.append_assoc]
          rw [parseLoop_key]
          have hk := readKeySnapshot_serialized s (serializeFrames rest) h0 h1
          obtain ⟨out', hout', htimes'⟩ := ih (readKeySnapshot (writeVarInt s.time ++
            (writeSignedVarInt (jround (s.x * POSITION_PRECISION)) ++
              (writeSignedVarInt (jround (s.z * POSITION_PRECISION)) ++
                (writeSignedVarInt (jround (s.rotY * ROTATION_PRECISION)) ++
                  (writeSignedVarInt (jround (s.vx * POSITION_PRECISION)) ++
                    (writeSignedVarInt (jround (s.vz * POSITION_PRECISION)) ++
                      serializeFrames rest))))))).1 hwf_rest
          rw [hk.2, hout']
          refine ⟨_ :: out', rfl, ?_⟩
          simp only [frameTimes, List.map_cons, hk.1, htimes']
      | run c =>
          obtain ⟨hc1, hc2⟩ := hwf_f
          simp only [serializeFrames, serializeFrame, List.cons_append]
          have hv := readVarInt_write_int (c : ℤ) (by omega) (by exact_mod_cast hc2)
            (serializeFrames rest)
          have hnz : (readVarInt (writeVarInt (c : ℤ) ++ serializeFrames rest)).1.toNat ≠ 0 := by
            rw [hv]
            simp only [Int.toNat_natCast]
            omega
          rw [parseLoop_run_pos _ last hnz]
          simp only [hv, Int.toNat_natCast]
          obtain ⟨out', hout', htimes'⟩ := ih ((expandRun last c).getLastD last) hwf_rest
          rw [hout']
          refine ⟨expandRun last c ++ out', rfl, ?_⟩
          simp only [frameTimes, List.map_append, htimes', (expandRun_times c last).1,
            (expandRun_times c last).2]
      | deltas ds =>
          obtain ⟨hd1, hd2⟩ := hwf_f
          simp only [serializeFrames, serializeFrame, List.cons_append, List.append_assoc]
          have hv := readVarInt_write_int (ds.length : ℤ) (by omega) (by exact_mod_cast hd2)
            (serializeResiduals ds ++ serializeFrames rest)
          have hnz : (readVarInt (writeVarInt (ds.length : ℤ) ++
              (serializeResiduals ds ++ serializeFrames rest))).1.toNat ≠ 0 := by
            rw [hv]
            simp only [Int.toNat_natCast]
            omega
          rw [parseLoop_deltas_pos _ last hnz]
          simp only [hv, Int.toNat_natCast]
          have hrd := readDeltas_serialized ds last (serializeFrames rest)
          obtain ⟨out', hout', htimes'⟩ :=
            ih (readDeltas last ds.length (serializeResiduals ds ++ serializeFrames rest)).2.1
              hwf_rest
          rw [hrd.2.2, hout']
          refine ⟨_, rfl, ?_⟩
          simp only [frameTimes, List.map_append, htimes', hrd.1, hrd.2.1]

theorem parse_serialize_none (s : Snapshot) (F : List Frame)
    (hwf : ∀ f ∈ Frame.key s :: F, wfFrame f) :
    ∃ out, parseLoop (serializeFrames (Frame.key s :: F)) none = some out ∧
      out.map Snapshot.time = frameTimes (Frame.key s :: F) 0 := by
  have hwf_f : wfFrame (Frame.key s) := hwf _ (List.mem_cons_self _ F)
  obtain ⟨h0, h1⟩ := hwf_f
  have hwf_rest : ∀ g ∈ F, wfFrame g := fun g hg => hwf g (List.mem_cons_of_mem _ hg)
  simp only [serializeFrames, serializeFrame, List.cons_append, List.append_assoc]
  rw [parseLoop_key]
  have hk := readKeySnapshot_serialized s (serializeFrames F) h0 h1
  obtain ⟨out', hout', htimes'⟩ := parse_serialize F (readKeySnapshot (writeVarInt s.time ++
    (writeSignedVarInt (jround (s.x * POSITION_PRECISION)) ++
      (writeSignedVarInt (jround (s.z * POSITION_PRECISION)) ++
        (writeSignedVarInt (jround (s.rotY * ROTATION_PRECISION)) ++
          (writeSignedVarInt (jround (s.vx * POSITION_PRECISION)) ++
            (writeSignedVarInt (jround (s.vz * POSITION_PRECISION)) ++
              serializeFrames F))))))).1 hwf_rest
  rw [hk.2, hout']
  refine ⟨_ :: out', rfl, ?_⟩
  simp only [frameTimes, List.map_cons, hk.1, htimes']

end GhostRecorder

namespace GhostRecorder

/-- Invariant of the encoder loop after consuming `n` samples whose times are
`times`, the first being `s0` and the last `lastS`: the emitted frames start
with a keyframe of `s0`; the pending run and pending delta batch are never
simultaneously non-empty; `lastFrame` is the last consumed sample; the
emitted frames plus a final flush expand to exactly the consumed sample
times (for any base time, since the head keyframe resets it) and end at the
last consumed time; all frames are well-formed; and the pending counts are
bounded by `n`. -/
def Inv (s0 lastS : Snapshot) (times : List ℤ) (n : ℕ) (st : EncState) : Prop :=
  (∃ F0, st.frames = Frame.key s0 :: F0) ∧
  (st.runLength = 0 ∨ st.pending = []) ∧
  st.lastFrame = some lastS ∧
  (∀ t, frameTimes (st.frames ++ flushPending st) t = times) ∧
  (∀ t, endTime (st.frames ++ flushPending st) t = lastS.time) ∧
  (∀ f ∈ st.frames ++ flushPending st, wfFrame f) ∧
  st.runLength + st.pending.length ≤ n

theorem rangeTimes_zero (t : ℤ) : rangeTimes 0 t = [] := by
  simp [rangeTimes]

theorem frameTimes_flushPending (st : EncState) (e : ℤ) :
    frameTimes (flushPending st) e = rangeTimes st.runLength e ++
      rangeTimes st.pending.length (e + 50 * st.runLength) := by
  unfold flushPending
  by_cases h1 : st.runLength > 0 <;> by_cases h2 : st.pending ≠ []
  · simp [h1, h2, frameTimes]
  · have h2' : st.pending = [] := not_not.mp h2
    simp [h1, h2', frameTimes, rangeTimes_zero]
  · have h1' : st.runLength = 0 := by omega
    simp [h1', h2, frameTimes, rangeTimes_zero]
  · have h1' : st.runLength = 0 := by omega
    have h2' : st.pending = [] := not_not.mp h2
    simp [h1', h2', frameTimes, rangeTimes_zero]

theorem endTime_flushPending (st : EncState) (e : ℤ) :
    endTime (flushPending st) e = e + 50 * st.runLength + 50 * st.pending.length := by
  unfold flushPending
  by_cases h1 : st.runLength > 0 <;> by_cases h2 : st.pending ≠ []
  · simp [h1, h2, endTime]
  · have h2' : st.pending = [] := not_not.mp h2
    simp [h1, h2', endTime]
  · have h1' : st.runLength = 0 := by omega
    simp [h1', h2, endTime]
  · have h1' : st.runLength = 0 := by omega
    have h2' : st.pending = [] := not_not.mp h2
    simp [h1', h2', endTime]

theorem inv_step_key (s0 lastS : Snapshot) (times : List ℤ) (n : ℕ) (st : EncState)
    (s' : Snapshot)
    (hF : ∃ F0, st.frames = Frame.key s0 :: F0)
    (htimes : ∀ t, frameTimes (st.frames ++ flushPending st) t = times)
    (hend : ∀ t, endTime (st.frames ++ flushPending st) t = lastS.time)
    (hwf : ∀ f ∈ st.frames ++ flushPending st, wfFrame f)
    (hr0 : 0 ≤ s'.time) (hr1 : s'.time < 2 ^ 31) :
    Inv s0 s' (times ++ [s'.time]) (n + 1)
      ⟨(if st.pending ≠ [] then
          (if st.runLength > 0 then st.frames ++ [Frame.run st.runLength] else st.frames) ++
            [Frame.deltas st.pending]
        else if st.runLength > 0 then st.frames ++ [Frame.run st.runLength] else st.frames) ++
          [Frame.key s'], some s', some s', 0, []⟩ := by
  obtain ⟨F0, hF0⟩ := hF
  have hE : (if st.pending ≠ [] then
        (if st.runLength > 0 then st.frames ++ [Frame.run st.runLength] else st.frames) ++
          [Frame.deltas st.pending]
      else if st.runLength > 0 then st.frames ++ [Frame.run st.runLength] else st.frames)
      = st.frames ++ flushPending st := by
    unfold flushPending
    by_cases h1 : st.runLength > 0 <;> by_cases h2 : st.pending ≠ [] <;>
      simp [h1, h2, List.append_assoc]
  rw [hE]
  have hfp : flushPending ⟨(st.frames ++ flushPending st) ++ [Frame.key s'],
      some s', some s', 0, []⟩ = [] := rfl
  refine ⟨⟨F0 ++ (flushPending st ++ [Frame.key s']), ?_⟩, Or.inl rfl, rfl, ?_, ?_, ?_, ?_⟩
  · show (st.frames ++ flushPending st) ++ [Frame.key s']
      = Frame.key s0 :: (F0 ++ (flushPending st ++ [Frame.key s']))
    rw [hF0]
    simp
  · intro t
    simp only [hfp, List.append_nil]
    rw [frameTimes_append, htimes t]
    simp [frameTimes]
  · intro t
    simp only [hfp, List.append_nil]
    rw [endTime_append]
    simp [endTime]
  · intro f hf
    simp only [hfp, List.append_nil, List.mem_append, List.mem_singleton] at hf
    rcases hf with hf | rfl
    · exact hwf f (List.mem_append.mpr hf)
    · exact ⟨hr0, hr1⟩
  · simp

theorem inv_step_run (s0 lastS : Snapshot) (times : List ℤ) (n : ℕ) (st : EncState)
    (s' : Snapshot)
    (hF : ∃ F0, st.frames = Frame.key s0 :: F0)
    (hex : st.runLength = 0 ∨ st.pending = [])
    (htimes : ∀ t, frameTimes (st.frames ++ flushPending st) t = times)
    (hend : ∀ t, endTime (st.frames ++ flushPending st) t = lastS.time)
    (hwf : ∀ f ∈ st.frames ++ flushPending st, wfFrame f)
    (hcnt : st.runLength + st.pending.length ≤ n)
    (hcad : s'.time = lastS.time + 50) (hlen : n + 1 < 2 ^ 31) :
    Inv s0 s' (times ++ [s'.time]) (n + 1)
      ⟨(if st.pending ≠ [] then st.frames ++ [Frame.deltas st.pending] else st.frames),
       st.lastKeyframe, some s', st.runLength + 1, []⟩ := by
  obtain ⟨F0, hF0⟩ := hF
  by_cases hp : st.pending = []
  · -- no pending delta batch: the run just grows
    rw [if_neg (not_not_intro hp)]
    have hfps : flushPending st = if st.runLength > 0 then [Frame.run st.runLength] else [] := by
      unfold flushPending
      rw [if_neg (not_not_intro hp), List.append_nil]
    have hfp1 : flushPending ⟨st.frames, st.lastKeyframe, some s', st.runLength + 1, []⟩
        = [Frame.run (st.runLength + 1)] := by
      simp [flushPending]
    have hT : ∀ t, frameTimes st.frames t ++ rangeTimes st.runLength (endTime st.frames t)
        = times := by
      intro t
      have h := htimes t
      rw [frameTimes_append, hfps] at h
      by_cases h1 : st.runLength > 0
      · rw [if_pos h1] at h
        simpa [frameTimes] using h
      · have h1' : st.runLength = 0 := by omega
        rw [if_neg h1] at h
        simpa [frameTimes, h1', rangeTimes_zero] using h
    have hEnd : ∀ t, endTime st.frames t + 50 * st.runLength = lastS.time := by
      intro t
      have h := hend t
      rw [endTime_append, hfps] at h
      by_cases h1 : st.runLength > 0
      · rw [if_pos h1] at h
        simpa [endTime] using h
      · have h1' : st.runLength = 0 := by omega
        rw [if_neg h1] at h
        simp only [endTime] at h
        rw [h1']
        push_cast
        omega
    refine ⟨⟨F0, hF0⟩, Or.inr rfl, rfl, ?_, ?_, ?_, ?_⟩
    · intro t
      simp only [hfp1]
      rw [frameTimes_append]
      simp only [frameTimes, List.append_nil, rangeTimes_succ]
      rw [← List.append_assoc, hT t]
      have hel : endTime st.frames t + 50 * ((st.runLength : ℤ) + 1) = s'.time := by
        have := hEnd t
        push_cast at this ⊢
        omega
      rw [hel]
    · intro t
      simp only [hfp1]
      rw [endTime_append]
      simp only [endTime]
      have := hEnd t
      push_cast at this ⊢
      omega
    · intro f hf
      simp only [hfp1, List.mem_append, List.mem_singleton] at hf
      rcases hf with hf | rfl
      · exact hwf f (List.mem_append.mpr (Or.inl hf))
      · show 1 ≤ st.runLength + 1 ∧ st.runLength + 1 < 2 ^ 31
        omega
    · show st.runLength + 1 + ([] : List (ℤ × ℤ × ℤ × ℤ × ℤ)).length ≤ n + 1
      simp only [List.length_nil]
      omega
  · -- pending batch flushed, fresh run of length 1 (runLength was 0)
    have hr : st.runLength = 0 := by
      rcases hex with h | h
      · exact h
      · exact absurd h hp
    rw [if_pos hp]
    have hfps : flushPending st = [Frame.deltas st.pending] := by
      unfold flushPending
      rw [if_neg (by omega), if_pos hp, List.nil_append]
    have hfp2 : flushPending ⟨st.frames ++ [Frame.deltas st.pending], st.lastKeyframe,
        some s', st.runLength + 1, []⟩ = [Frame.run (st.runLength + 1)] := by
      simp [flushPending]
    have ht' := htimes
    have he' := hend
    simp only [hfps] at ht' he'
    refine ⟨⟨F0 ++ [Frame.deltas st.pending], by rw [hF0]; rfl⟩, Or.inr rfl, rfl,
      ?_, ?_, ?_, ?_⟩
    · intro t
      simp only [hfp2]
      rw [frameTimes_append, ht' t, he' t]
      have hel : rangeTimes (st.runLength + 1) lastS.time = [s'.time] := by
        rw [hr, rangeTimes_succ, rangeTimes_zero, List.nil_append, hcad]
        norm_num
      simp only [frameTimes, List.append_nil, hel]
    · intro t
      simp only [hfp2]
      rw [endTime_append, he' t]
      simp only [endTime]
      rw [hr]
      push_cast
      omega
    · intro f hf
      simp only [hfp2, List.mem_append, List.mem_singleton] at hf
      have hlp : 0 < st.pending.length := List.length_pos.mpr hp
      rcases hf with (hf | rfl) | rfl
      · exact hwf f (List.mem_append.mpr (Or.inl hf))
      · show 1 ≤ st.pending.length ∧ st.pending.length < 2 ^ 31
        omega
      · show 1 ≤ st.runLength + 1 ∧ st.runLength + 1 < 2 ^ 31
        omega
    · show st.runLength + 1 + ([] : List (ℤ × ℤ × ℤ × ℤ × ℤ)).length ≤ n + 1
      simp only [List.length_nil]
      omega

theorem inv_step_delta (s0 lastS : Snapshot) (times : List ℤ) (n : ℕ) (st : EncState)
    (s' : Snapshot) (x : ℤ × ℤ × ℤ × ℤ × ℤ)
    (hF : ∃ F0, st.frames = Frame.key s0 :: F0)
    (hex : st.runLength = 0 ∨ st.pending = [])
    (htimes : ∀ t, frameTimes (st.frames ++ flushPending st) t = times)
    (hend : ∀ t, endTime (st.frames ++ flushPending st) t = lastS.time)
    (hwf : ∀ f ∈ st.frames ++ flushPending st, wfFrame f)
    (hcnt : st.runLength + st.pending.length ≤ n)
    (hcad : s'.time = lastS.time + 50) (hlen : n + 1 < 2 ^ 31) :
    Inv s0 s' (times ++ [s'.time]) (n + 1)
      ⟨(if st.runLength > 0 then st.frames ++ [Frame.run st.runLength] else st.frames),
       st.lastKeyframe, some s', 0, st.pending ++ [x]⟩ := by
  obtain ⟨F0, hF0⟩ := hF
  by_cases hrz : st.runLength = 0
  · -- no open run: the delta batch just grows
    rw [if_neg (by omega)]
    have hfp3 : flushPending ⟨st.frames, st.lastKeyframe, some s', 0, st.pending ++ [x]⟩
        = [Frame.deltas (st.pending ++ [x])] := by
      simp [flushPending]
    have hfps : flushPending st = if st.pending ≠ [] then [Frame.deltas st.pending] else [] := by
      unfold flushPending
      rw [if_neg (by omega), List.nil_append]
    have hT : ∀ t, frameTimes st.frames t ++ rangeTimes st.pending.length (endTime st.frames t)
        = times := by
      intro t
      have h := htimes t
      rw [frameTimes_append, hfps] at h
      by_cases h2 : st.pending ≠ []
      · rw [if_pos h2] at h
        simpa [frameTimes] using h
      · have h2' : st.pending = [] := not_not.mp h2
        rw [if_neg h2] at h
        simpa [frameTimes, h2', rangeTimes_zero] using h
    have hEnd : ∀ t, endTime st.frames t + 50 * st.pending.length = lastS.time := by
      intro t
      have h := hend t
      rw [endTime_append, hfps] at h
      by_cases h2 : st.pending ≠ []
      · rw [if_pos h2] at h
        simpa [endTime] using h
      · have h2' : st.pending = [] := not_not.mp h2
        rw [if_neg h2] at h
        simp only [endTime] at h
        rw [h2']
        simp only [List.length_nil]
        push_cast
        omega
    refine ⟨⟨F0, hF0⟩, Or.inl rfl, rfl, ?_, ?_, ?_, ?_⟩
    · intro t
      simp only [hfp3]
      rw [frameTimes_append]
      simp only [frameTimes, List.append_nil, List.length_append, List.length_singleton,
        rangeTimes_succ]
      rw [← List.append_assoc, hT t]
      have hel : endTime st.frames t + 50 * ((st.pending.length : ℤ) + 1) = s'.time := by
        have := hEnd t
        push_cast at this ⊢
        omega
      rw [hel]
    · intro t
      simp only [hfp3]
      rw [endTime_append]
      simp only [endTime, List.length_append, List.length_singleton]
      have := hEnd t
      push_cast at this ⊢
      omega
    · intro f hf
      simp only [hfp3, List.mem_append, List.mem_singleton] at hf
      rcases hf with hf | rfl
      · exact hwf f (List.mem_append.mpr (Or.inl hf))
      · show 1 ≤ (st.pending ++ [x]).length ∧ (st.pending ++ [x]).length < 2 ^ 31
        simp only [List.length_append, List.length_singleton]
        omega
    · show 0 + (st.pending ++ [x]).length ≤ n + 1
      simp only [List.length_append, List.length_singleton]
      omega
  · -- an open run is flushed first (the batch was empty)
    have hp : st.pending = [] := by
      rcases hex with h | h
      · exact absurd h hrz
      · exact h
    rw [if_pos (by omega)]
    have hfp3 : flushPending ⟨st.frames ++ [Frame.run st.runLength], st.lastKeyframe,
        some s', 0, st.pending ++ [x]⟩ = [Frame.deltas (st.pending ++ [x])] := by
      simp [flushPending]
    have hfps : flushPending st = [Frame.run st.runLength] := by
      unfold flushPending
      rw [if_pos (by omega), if_neg (not_not_intro hp), List.append_nil]
    have ht' := htimes
    have he' := hend
    simp only [hfps] at ht' he'
    refine ⟨⟨F0 ++ [Frame.run st.runLength], by rw [hF0]; rfl⟩, Or.inl rfl, rfl,
      ?_, ?_, ?_, ?_⟩
    · intro t
      simp only [hfp3]
      rw [frameTimes_append, ht' t, he' t]
      have hel : rangeTimes ((st.pending ++ [x]).length) lastS.time = [s'.time] := by
        rw [hp]
        simp only [List.nil_append, List.length_singleton]
        rw [show (1 : ℕ) = 0 + 1 from rfl, rangeTimes_succ, rangeTimes_zero,
          List.nil_append, hcad]
        norm_num
      simp only [frameTimes, List.append_nil, hel]
    · intro t
      simp only [hfp3]
      rw [endTime_append, he' t]
      simp only [endTime]
      rw [hp]
      simp only [List.nil_append, List.length_singleton]
      push_cast
      omega
    · intro f hf
      simp only [hfp3, List.mem_append, List.mem_singleton] at hf
      rcases hf with (hf | rfl) | rfl
      · exact hwf f (List.mem_append.mpr (Or.inl hf))
      · exact hwf _ (List.mem_append.mpr (Or.inr (by rw [hfps]; exact List.mem_singleton.mpr rfl)))
      · show 1 ≤ (st.pending ++ [x]).length ∧ (st.pending ++ [x]).length < 2 ^ 31
        simp only [List.length_append, List.length_singleton]
        omega
    · show 0 + (st.pending ++ [x]).length ≤ n + 1
      simp only [List.length_append, List.length_singleton]
      omega

theorem encodeStep_inv (s0 lastS : Snapshot) (times : List ℤ) (n : ℕ) (st : EncState)
    (s' : Snapshot) (hInv : Inv s0 lastS times n st)
    (hcad : s'.time = lastS.time + 50)
    (hr0 : 0 ≤ s'.time) (hr1 : s'.time < 2 ^ 31)
    (hlen : n + 1 < 2 ^ 31) :
    Inv s0 s' (times ++ [s'.time]) (n + 1) (encodeStep st s') := by
  obtain ⟨hF, hex, hlast, htimes, hend, hwf, hcnt⟩ := hInv
  simp only [encodeStep, hlast, Option.isNone_some, Bool.false_or]
  by_cases hkf : s'.time - ((st.lastKeyframe.map Snapshot.time).getD 0) ≥ KEYFRAME_INTERVAL
  · rw [if_pos (by simpa using hkf)]
    exact inv_step_key s0 lastS times n st s' hF htimes hend hwf hr0 hr1
  · rw [if_neg (by simpa using hkf)]
    by_cases hz : jround ((s'.x - (lastS.x + lastS.vx * (((s'.time - lastS.time : ℤ) : ℚ) / 1000)))
          * POSITION_PRECISION) = 0 ∧
        jround ((s'.z - (lastS.z + lastS.vz * (((s'.time - lastS.time : ℤ) : ℚ) / 1000)))
          * POSITION_PRECISION) = 0 ∧
        |jround ((s'.rotY - lastS.rotY) * ROTATION_PRECISION)| < 5 ∧
        jround ((s'.vx - lastS.vx) * POSITION_PRECISION) = 0 ∧
        jround ((s'.vz - lastS.vz) * POSITION_PRECISION) = 0
    · rw [if_pos hz]
      exact inv_step_run s0 lastS times n st s' hF hex htimes hend hwf hcnt hcad hlen
    · rw [if_neg hz]
      exact inv_step_delta s0 lastS times n st s' _ hF hex htimes hend hwf hcnt hcad hlen

theorem encodeStep_first (s : Snapshot) (h0 : 0 ≤ s.time) (h1 : s.time < 2 ^ 31) :
    Inv s s [s.time] 1 (encodeStep ⟨[], none, none, 0, []⟩ s) := by
  have hstep : encodeStep ⟨[], none, none, 0, []⟩ s = ⟨[Frame.key s], some s, some s, 0, []⟩ := by
    simp [encodeStep]
  rw [hstep]
  have hfp : flushPending ⟨[Frame.key s], some s, some s, 0, []⟩ = [] := rfl
  refine ⟨⟨[], rfl⟩, Or.inl rfl, rfl, ?_, ?_, ?_, ?_⟩
  · intro t
    simp only [hfp, List.append_nil]
    simp [frameTimes]
  · intro t
    simp only [hfp, List.append_nil]
    simp [endTime]
  · intro f hf
    simp only [hfp, List.append_nil, List.mem_singleton] at hf
    subst hf
    exact ⟨h0, h1⟩
  · simp

theorem encode_fold_inv (s0 : Snapshot) (rest : List Snapshot) :
    ∀ (lastS : Snapshot) (times : List ℤ) (n : ℕ) (st : EncState),
      Inv s0 lastS times n st →
      List.Chain' (fun a b : Snapshot => b.time = a.time + 50) (lastS :: rest) →
      (∀ s ∈ rest, 0 ≤ s.time ∧ s.time < 2 ^ 31) →
      n + rest.length < 2 ^ 31 →
      Inv s0 (rest.getLastD lastS) (times ++ rest.map Snapshot.time)
        (n + rest.length) (rest.foldl encodeStep st) := by
  induction rest with
  | nil =>
      intro lastS times n st hInv _ _ _
      simpa using hInv
  | cons s rest ih =>
      intro lastS times n st hInv hchain hbnd hlen
      have hcad : s.time = lastS.time + 50 := (List.chain'_cons.mp hchain).1
      have hs := hbnd s (List.mem_cons_self s rest)
      have hstep := encodeStep_inv s0 lastS times n st s hInv hcad hs.1 hs.2
        (by simp only [List.length_cons] at hlen; omega)
      have hrec := ih s (times ++ [s.time]) (n + 1) (encodeStep st s) hstep
        (List.chain'_cons.mp hchain).2
        (fun u hu => hbnd u (List.mem_cons_of_mem s hu))
        (by simp only [List.length_cons] at hlen; omega)
      rw [List.getLastD_cons]
      have harr : (times ++ [s.time]) ++ rest.map Snapshot.time
          = times ++ (s :: rest).map Snapshot.time := by
        simp
      have hn : n + 1 + rest.length = n + (s :: rest).length := by
        simp only [List.length_cons]
        omega
      rw [show (s :: rest).foldl encodeStep st = rest.foldl encodeStep (encodeStep st s) from rfl]
      rw [← harr, ← hn]
      exact hrec

theorem chain50_facts (rest : List Snapshot) :
    ∀ s0 : Snapshot,
      List.Chain' (fun a b : Snapshot => b.time = a.time + 50) (s0 :: rest) →
      (rest.getLastD s0).time = s0.time + 50 * rest.length ∧
        ∀ s ∈ rest, s0.time ≤ s.time ∧ s.time ≤ s0.time + 50 * rest.length := by
  induction rest with
  | nil =>
      intro s0 _
      refine ⟨by simp, ?_⟩
      intro s hs
      simp at hs
  | cons s1 rest ih =>
      intro s0 hch
      have h1 : s1.time = s0.time + 50 := (List.chain'_cons.mp hch).1
      have ih1 := ih s1 (List.chain'_cons.mp hch).2
      constructor
      · rw [List.getLastD_cons, ih1.1, h1]
        simp only [List.length_cons]
        push_cast
        ring
      · intro s hs
        rcases List.mem_cons.mp hs with rfl | hs
        · simp only [List.length_cons]
          push_cast
          omega
        · have := ih1.2 s hs
          simp only [List.length_cons]
          push_cast
          omega

/-- Claim C1 (amended): for every non-empty snapshot list sampled at the exact
nominal 50 ms cadence, whose first time is nonnegative and whose last time is
below `2^31`, `decode (encode s)` returns exactly as many samples as were
encoded, each with its original timestamp.  (The positional part of the
round-trip claim is refuted separately by `c1_counterexample`: quantisation
error accumulates between keyframes, exceeding the claimed 1/100-unit bound.) -/
theorem c1_roundtrip_count_times (s : List Snapshot) (hne : s ≠ [])
    (hcad : List.Chain' (fun a b : Snapshot => b.time = a.time + 50) s)
    (h0 : 0 ≤ (s.headD ⟨0, 0, 0, 0, 0, 0⟩).time)
    (hmax : (s.getLastD ⟨0, 0, 0, 0, 0, 0⟩).time < 2 ^ 31) :
    (decode (encode s)).length = s.length ∧
      (decode (encode s)).map Snapshot.time = s.map Snapshot.time := by
  obtain ⟨s0, rest, rfl⟩ := List.exists_cons_of_ne_nil hne
  simp only [List.headD_cons] at h0
  rw [List.getLastD_cons] at hmax
  obtain ⟨hlastT, hbnds⟩ := chain50_facts rest s0 hcad
  have hln : (0 : ℤ) ≤ 50 * rest.length := by omega
  have h1' : s0.time < 2 ^ 31 := by omega
  have hbnd : ∀ u ∈ rest, 0 ≤ u.time ∧ u.time < 2 ^ 31 := by
    intro u hu
    have := hbnds u hu
    omega
  have hlen1 : 1 + rest.length < 2 ^ 31 := by
    have h50 : (50 : ℤ) * rest.length < 2 ^ 31 := by omega
    omega
  have hInv1 := encodeStep_first s0 h0 h1'
  have hInvF := encode_fold_inv s0 rest s0 [s0.time] 1
    (encodeStep ⟨[], none, none, 0, []⟩ s0) hInv1 hcad hbnd hlen1
  obtain ⟨⟨F0, hF0⟩, _hex, _hlast, htimesF, _hend, hwfF, _hcnt⟩ := hInvF
  have hfull : (rest.foldl encodeStep (encodeStep ⟨[], none, none, 0, []⟩ s0)).frames ++
        flushPending (rest.foldl encodeStep (encodeStep ⟨[], none, none, 0, []⟩ s0))
      = Frame.key s0 :: (F0 ++
        flushPending (rest.foldl encodeStep (encodeStep ⟨[], none, none, 0, []⟩ s0))) := by
    rw [hF0]
    rfl
  have hwf' : ∀ f ∈ Frame.key s0 :: (F0 ++ flushPending (rest.foldl encodeStep
      (encodeStep ⟨[], none, none, 0, []⟩ s0))), wfFrame f := by
    intro f hf
    exact hwfF f (by rw [hfull]; exact hf)
  obtain ⟨out, hout, houtT⟩ := parse_serialize_none s0 _ hwf'
  have henc : encodeFrames (s0 :: rest) = Frame.key s0 :: (F0 ++ flushPending
      (rest.foldl encodeStep (encodeStep ⟨[], none, none, 0, []⟩ s0))) := by
    unfold encodeFrames
    rw [flushFrames_eq]
    exact hfull
  have hdec : decode (encode (s0 :: rest)) = out := by
    simp only [encode, if_neg hne]
    simp only [decode, decrypt, encrypt]
    rw [encryptFrom_encryptFrom 0, henc, hout]
    rfl
  have hmap : (decode (encode (s0 :: rest))).map Snapshot.time
      = (s0 :: rest).map Snapshot.time := by
    rw [hdec, houtT, ← hfull, htimesF 0]
    rfl
  refine ⟨?_, hmap⟩
  have hl := congrArg List.length hmap
  simpa using hl

theorem c1_roundtrip_count_times_witness :
    ([⟨0, 0, 0, 0, 0, 0⟩, ⟨50, 0, 0, 0, 0, 0⟩] : List Snapshot) ≠ [] ∧
      (decode (encode ([⟨0, 0, 0, 0, 0, 0⟩, ⟨50, 0, 0, 0, 0, 0⟩] : List Snapshot))).length = 2 := by
  refine ⟨by simp, ?_⟩
  have h := c1_roundtrip_count_times [⟨0, 0, 0, 0, 0, 0⟩, ⟨50, 0, 0, 0, 0, 0⟩]
    (by simp)
    (by
      rw [List.chain'_cons]
      exact ⟨by norm_num, List.chain'_singleton _⟩)
    (by norm_num)
    (by norm_num [List.getLastD_cons])
  rw [h.1]
  rfl
